import Mathlib

/-!
Verification of the yamltools package (pkg/yamltools/yamltools.go) and the
render orchestration (pkg/engine/render.go, cmd template) of the talm
repository: a shallow embedding of the YAML node trees, the structural
differ, the comment capture/reapply pass and the render-and-reduce
orchestrator, together with proofs of the specification's claims about them.

The embedding mirrors gopkg.in/yaml.v3's Node struct restricted to the
fields this code reads or writes: Kind, Value, HeadComment, LineComment,
FootComment and Content.  Styles, tags, anchors and line/column positions
are never inspected by the code under verification and are omitted.
-/

set_option autoImplicit false
set_option linter.unusedVariables false

/-- The yaml.v3 node kinds.  `zero` models Go's zero `yaml.Kind` (0), the
others model DocumentNode, SequenceNode, MappingNode, ScalarNode and
AliasNode. -/
inductive Kind : Type where
  | zero | document | sequence | mapping | scalar | alias
deriving DecidableEq, Repr

/-- A yaml.v3 `*yaml.Node` restricted to the fields the verified code uses:
Kind, Value, HeadComment, LineComment, FootComment, Content.  A mapping
node's content alternates key nodes and value nodes; a sequence node's
content lists its items; a document node's content holds the root. -/
inductive Node : Type where
  | mk (kind : Kind) (value : String) (head line foot : String) (content : List Node)
deriving Repr

namespace Node

def kind : Node → Kind | .mk k _ _ _ _ _ => k
def value : Node → String | .mk _ v _ _ _ _ => v
def head : Node → String | .mk _ _ h _ _ _ => h
def line : Node → String | .mk _ _ _ l _ _ => l
def foot : Node → String | .mk _ _ _ _ f _ => f
def content : Node → List Node | .mk _ _ _ _ _ c => c

end Node

/-- Successive (key, value) pairs of a mapping node's content, as walked by
the Go loops `for i := 0; i+1 < len(node.Content); i += 2`.  A trailing odd
element is ignored, exactly as the bound `i+1 < len` ignores it. -/
def contentPairs : List Node → List (Node × Node)
  | k :: v :: rest => (k, v) :: contentPairs rest
  | _ => []

/-- Lookup in an association list, first match wins. -/
def mapFind (m : List (String × Node)) (k : String) : Option Node :=
  match m with
  | [] => none
  | (k1, v) :: rest => if k1 = k then some v else mapFind rest k

/-- The map built by `nodeMap` (yamltools.go): for each (key, value) content
pair whose key node is a scalar, the Go code assigns `result[key.Value] =
value`; a later assignment to the same key overwrites an earlier one.  The
final map is modelled as the assignment list reversed, so that the
first-match `mapFind` returns the last assignment, like a Go map read. -/
def nodeMap (n : Node) : List (String × Node) :=
  ((contentPairs n.content).filterMap fun kv =>
    if kv.1.kind = .scalar then some (kv.1.value, kv.2) else none).reverse

/-- The (key string, value) pairs of a mapping node's content in order,
keyed by each key node's Value. -/
def entryPairs (n : Node) : List (String × Node) :=
  (contentPairs n.content).map fun kv => (kv.1.value, kv.2)

/-- The key strings of a mapping node's content in order. -/
def entryKeys (n : Node) : List String :=
  (entryPairs n).map Prod.fst

theorem mapFind_mem {m : List (String × Node)} {k : String} {v : Node}
    (h : mapFind m k = some v) : (k, v) ∈ m := by
  induction m with
  | nil => simp [mapFind] at h
  | cons p rest ih =>
    obtain ⟨k1, v1⟩ := p
    simp only [mapFind] at h
    split at h
    · simp_all
    · simp [ih h]

theorem mem_contentPairs {l : List Node} {a b : Node}
    (h : (a, b) ∈ contentPairs l) : a ∈ l ∧ b ∈ l := by
  induction l using contentPairs.induct with
  | case1 k v rest ih =>
    simp only [contentPairs, List.mem_cons] at h
    rcases h with h | h
    · simp_all
    · have := ih h
      simp [this.1, this.2]
  | case2 l h2 => simp_all [contentPairs]

theorem sizeOf_content_lt (n : Node) : sizeOf n.content < sizeOf n := by
  cases n with
  | mk k v h l f c => simp [Node.content]

theorem sizeOf_nodeMap_lt {n : Node} {k : String} {v : Node}
    (h : mapFind (nodeMap n) k = some v) : sizeOf v < sizeOf n := by
  have hmem := mapFind_mem h
  simp only [nodeMap, List.mem_reverse, List.mem_filterMap] at hmem
  obtain ⟨⟨kn, vn⟩, hpair, hif⟩ := hmem
  have hv : vn = v := by
    by_cases hk : kn.kind = Kind.scalar <;> simp [hk] at hif
    exact hif.2
  subst hv
  have hmem2 := (mem_contentPairs hpair).2
  have h1 : sizeOf vn < sizeOf n.content := List.sizeOf_lt_of_mem hmem2
  have h2 := sizeOf_content_lt n
  omega

theorem mem_entryPairs_sizeOf_lt {n : Node} {k : String} {v : Node}
    (h : (k, v) ∈ entryPairs n) : sizeOf v < sizeOf n := by
  simp only [entryPairs, List.mem_map] at h
  obtain ⟨⟨kn, vn⟩, hpair, heq⟩ := h
  have hv : vn = v := congrArg Prod.snd heq
  subst hv
  have hmem2 := (mem_contentPairs hpair).2
  have h1 : sizeOf vn < sizeOf n.content := List.sizeOf_lt_of_mem hmem2
  have h2 := sizeOf_content_lt n
  omega

theorem sizeOf_entryFind_lt {n : Node} {k : String} {v : Node}
    (h : mapFind (entryPairs n) k = some v) : sizeOf v < sizeOf n :=
  mem_entryPairs_sizeOf_lt (mapFind_mem h)

/-- `createDeleteNode` (yamltools.go): the deletion marker mapping
consisting of the single pair with key scalar "$patch" and value scalar
"delete". -/
def createDeleteNode : Node :=
  .mk .mapping "" "" "" ""
    [.mk .scalar "$patch" "" "" "" [], .mk .scalar "delete" "" "" "" []]

/-- `addNodeToDiff` (yamltools.go): appends a fresh scalar key node and the
given value node to a diff mapping's content. -/
def addNodeToDiff (diffContent : List Node) (key : String) (n : Node) : List Node :=
  diffContent ++ [.mk .scalar key "" "" "" [], n]

/-- `nodeSet` + `compareSequenceNodes` (yamltools.go): collect the Value
strings of the original sequence's items; every item of the modified
sequence whose Value is not among them is appended to the diff in order;
an empty diff is nil. -/
def compareSequenceNodes (orig modn : Node) : Option Node :=
  let origSet := orig.content.map Node.value
  let diffContent := modn.content.filter fun m => !(origSet.contains m.value)
  if diffContent.isEmpty then none
  else some (.mk .sequence "" "" "" "" diffContent)

/-- The keys recorded in `processedKeys` by the first pass of
`compareMappingNodes`: keys of the modified mapping's content pairs for
which the original map has an entry.  The second pass only consults this
set after the first pass has completed, so it is computed closed-form. -/
def processedKeys (orig modn : Node) : List String :=
  (contentPairs modn.content).filterMap fun kv =>
    if (mapFind (nodeMap orig) kv.1.value).isSome then some kv.1.value else none

/-- Second pass of `compareMappingNodes` (yamltools.go): for each key of the
original mapping not processed by the first pass, emit a nested per-key
deletion if the original value is a mapping, otherwise the flat deletion
marker.  When the key is missing from `nodeMap orig` (possible only for a
non-scalar key node, outside the spec's data model) the Go code would
dereference a nil pointer; the model emits nothing there. -/
def compareMappingSecond (orig modn : Node) : List Node :=
  (contentPairs orig.content).foldr
    (fun kv acc =>
      let key := kv.1.value
      if (processedKeys orig modn).contains key then acc
      else
        match mapFind (nodeMap orig) key with
        | some origVal =>
          if origVal.kind = .mapping then
            let nestedDelete := (contentPairs origVal.content).foldr
              (fun nkv nacc => addNodeToDiff [] nkv.1.value createDeleteNode ++ nacc) []
            addNodeToDiff [] key (.mk .mapping "" "" "" "" nestedDelete) ++ acc
          else addNodeToDiff [] key createDeleteNode ++ acc
        | none => acc) []

mutual

/-- `compareNodes` (yamltools.go): a kind change returns the modified node
whole; mappings and sequences recurse; scalars compare Values; any other
kind pairing (document, alias, zero) falls through the switch to nil. -/
def compareNodes (orig modn : Node) : Option Node :=
  if orig.kind ≠ modn.kind then some modn
  else
    match orig.kind with
    | .mapping => compareMappingNodes orig modn
    | .sequence => compareSequenceNodes orig modn
    | .scalar => if orig.value ≠ modn.value then some modn else none
    | _ => none
termination_by (sizeOf orig + sizeOf modn, 1, 0)

/-- `compareMappingNodes` (yamltools.go): the first pass over the modified
mapping's keys followed by the second pass of deletions; an empty result is
nil. -/
def compareMappingNodes (orig modn : Node) : Option Node :=
  let diffContent :=
    compareMappingFirst orig modn (contentPairs modn.content) ++ compareMappingSecond orig modn
  if diffContent.isEmpty then none
  else some (.mk .mapping "" "" "" "" diffContent)
termination_by (sizeOf orig + sizeOf modn, 0, sizeOf (contentPairs modn.content) + 1)

/-- First pass of `compareMappingNodes` (yamltools.go), iterating the
modified mapping's content pairs: a key present in both maps contributes
its recursive diff when non-nil; a key missing from the original map
contributes the modified map's value.  In the two branches where a lookup
that mirrors a Go map read comes back empty although the key was read off
a content pair (possible only for non-scalar key nodes, outside the spec's
data model), the Go code would append a nil node or dereference nil; the
model emits nothing there. -/
def compareMappingFirst (orig modn : Node) (pairs : List (Node × Node)) : List Node :=
  match pairs with
  | [] => []
  | (kNode, _) :: rest =>
    let key := kNode.value
    let entry : List Node :=
      match _h1 : mapFind (nodeMap orig) key, _h2 : mapFind (nodeMap modn) key with
      | some origVal, some modVal =>
        have _hov : sizeOf origVal < sizeOf orig := sizeOf_nodeMap_lt _h1
        have _hmv : sizeOf modVal < sizeOf modn := sizeOf_nodeMap_lt _h2
        match compareNodes origVal modVal with
        | some changed => addNodeToDiff [] key changed
        | none => []
      | some _, none => []
      | none, some modVal => addNodeToDiff [] key modVal
      | none, none => []
    entry ++ compareMappingFirst orig modn rest
termination_by (sizeOf orig + sizeOf modn, 0, sizeOf pairs)

end

mutual

/-- `clearComments` (yamltools.go): erase head, line and foot comments of a
node and, recursively, of every node below it. -/
def clearComments : Node → Node
  | .mk k v _ _ _ c => .mk k v "" "" "" (clearCommentsList c)

/-- The recursion of `clearComments` over a node's content. -/
def clearCommentsList : List Node → List Node
  | [] => []
  | c :: rest => clearComments c :: clearCommentsList rest

end

/-- `DiffYAMLs` (yamltools.go) at tree level: both parsed documents have
their comments cleared, then their roots are compared.  Byte-level parsing
and re-encoding are outside the model: the two arguments stand for the
parse trees of the two input documents (the source compares
`origNode.Content[0]` after clearing comments from the document node, which
equals comparing the cleared roots), and a `none` result stands for the
empty output `[]byte` with nil error. -/
def diffYAMLs (origRoot modRoot : Node) : Option Node :=
  compareNodes (clearComments origRoot) (clearComments modRoot)

/-- Scalar node literal helper used in concrete examples. -/
def ysc (s : String) : Node := .mk .scalar s "" "" "" []

/-- Mapping node literal helper used in concrete examples. -/
def ymp (entries : List (String × Node)) : Node :=
  .mk .mapping "" "" "" "" (entries.foldr (fun kv acc => ysc kv.1 :: kv.2 :: acc) [])

/-- Sequence node literal helper used in concrete examples. -/
def ysq (items : List Node) : Node := .mk .sequence "" "" "" "" items

/-- Go's unicode.IsSpace restricted to the Latin-1 range it special-cases:
space, tab, newline, vertical tab, form feed, carriage return, NEL and
non-breaking space.  (The Unicode space property beyond Latin-1 is not
modelled; no claim depends on it.) -/
def goIsSpace (c : Char) : Bool :=
  c = ' ' || c = '\t' || c = '\n' || c = '\u000B' || c = '\u000C' || c = '\r' ||
  c = '\u0085' || c = '\u00A0'

/-- Go's strings.TrimSpace: drop leading and trailing white space. -/
def goTrimSpace (s : String) : String :=
  String.mk (((s.toList.dropWhile goIsSpace).reverse.dropWhile goIsSpace).reverse)

/-- `mergeComments` (yamltools.go): an empty old comment yields the new one,
an empty new comment keeps the old one, and two non-empty comments are
joined by a blank line after trimming surrounding white space from each. -/
def mergeComments (oldComment newComment : String) : String :=
  if oldComment = "" then newComment
  else if newComment = "" then oldComment
  else goTrimSpace oldComment ++ "\n\n" ++ goTrimSpace newComment

/-- Go's string(i) conversion of an integer index, as used for sequence
path elements in CopyComments and ApplyComments (yamltools.go): the
one-character string holding the rune with code point i (an invalid code
point yields U+FFFD).  Note this is the rune conversion, not the decimal
representation of i. -/
def goStringOfInt (i : Nat) : String :=
  if i.isValidChar then String.mk [Char.ofNat i] else String.mk ['\uFFFD']

/-- The path extension computed by the loop body of CopyComments
(yamltools.go): newPath is path + "/" + child.Value, overridden to
path + "/" + string(i) when the parent is a sequence node. -/
def captureChildPath (parentKind : Kind) (path : String) (i : Nat) (child : Node) : String :=
  if parentKind = .sequence then path ++ "/" ++ goStringOfInt i
  else path ++ "/" ++ child.value

/-- The path extension computed by the loop body of ApplyComments
(yamltools.go); the source repeats the same expression as in CopyComments. -/
def applyChildPath (parentKind : Kind) (path : String) (i : Nat) (child : Node) : String :=
  if parentKind = .sequence then path ++ "/" ++ goStringOfInt i
  else path ++ "/" ++ child.value

mutual

/-- `CopyComments` (yamltools.go): walk the source tree; every node with a
non-empty head, line or foot comment is recorded in dstPaths under its
path.  The dstNode argument is passed along untouched, exactly as in the
source, which never reads or writes it.  New map assignments are consed
onto the front, so the first-match `mapFind` returns the latest
assignment, matching Go map overwrite semantics. -/
def copyComments (srcNode dstNode : Node) (path : String)
    (dstPaths : List (String × Node)) : List (String × Node) :=
  match srcNode with
  | .mk k _ h l f c =>
    let dstPaths1 :=
      if h ≠ "" ∨ l ≠ "" ∨ f ≠ "" then (path, srcNode) :: dstPaths else dstPaths
    copyCommentsList k dstNode path 0 c dstPaths1

/-- The loop of `CopyComments` over the source node's content, carrying the
running child index. -/
def copyCommentsList (parentKind : Kind) (dstNode : Node) (path : String) (i : Nat)
    (children : List Node) (dstPaths : List (String × Node)) : List (String × Node) :=
  match children with
  | [] => dstPaths
  | c :: rest =>
    copyCommentsList parentKind dstNode path (i + 1) rest
      (copyComments c dstNode (captureChildPath parentKind path i c) dstPaths)

end

mutual

/-- `ApplyComments` (yamltools.go): if the path map has an entry for the
current path, merge each of the three comment channels of the current node
with the recorded source node's channels; then recurse into the content. -/
def applyComments (dstNode : Node) (path : String)
    (dstPaths : List (String × Node)) : Node :=
  match dstNode with
  | .mk k v h l f c =>
    let hlf : String × String × String :=
      match mapFind dstPaths path with
      | some srcNode =>
        (mergeComments h srcNode.head, mergeComments l srcNode.line,
         mergeComments f srcNode.foot)
      | none => (h, l, f)
    .mk k v hlf.1 hlf.2.1 hlf.2.2 (applyCommentsList k path 0 c dstPaths)

/-- The loop of `ApplyComments` over the target node's content, carrying
the running child index. -/
def applyCommentsList (parentKind : Kind) (path : String) (i : Nat)
    (children : List Node) (dstPaths : List (String × Node)) : List Node :=
  match children with
  | [] => []
  | c :: rest =>
    applyComments c (applyChildPath parentKind path i c) dstPaths ::
      applyCommentsList parentKind path (i + 1) rest dstPaths

end

/-- The zero yaml.Node, as left by unmarshalling an empty byte slice (the
shape DiffYAMLs' empty output re-parses to). -/
def zeroNode : Node := .mk .zero "" "" "" "" []

/-- The comment-copy loop closing applyPatchesAndRenderConfig (render.go)
and the template command: each rendered fragment is parsed — a parse
failure makes the whole function return the error — then its comments are
captured into a fresh path map and immediately applied to the shared
target node.  Fragments are given as parse outcomes: some tree, or none
for a parse failure. -/
def applyFragmentComments (targetNode : Node) (frags : List (Option Node)) :
    Except Unit Node :=
  match frags with
  | [] => .ok targetNode
  | none :: _ => .error ()
  | some srcNode :: rest =>
    applyFragmentComments
      (applyComments targetNode "" (copyComments srcNode targetNode "" [])) rest

/-- The target-selection and comment-copy tail of
applyPatchesAndRenderConfig (render.go): when opts.Full is set, the target
is the full serialized config; otherwise it is DiffYAMLs(origin, full),
whose empty output re-parses as the zero node.  The serialize-then-reparse
of the target is modelled as the identity on trees. -/
def renderFinal (full : Bool) (configOrigin configFull : Node)
    (frags : List (Option Node)) : Except Unit Node :=
  let target : Node :=
    if full then configFull
    else
      match diffYAMLs configOrigin configFull with
      | some d => d
      | none => zeroNode
  applyFragmentComments target frags

theorem sizeOf_snd_lt_of_mem_contentPairs {c : List Node} {kv : Node × Node}
    (h : kv ∈ contentPairs c) : sizeOf kv.2 < sizeOf c := by
  obtain ⟨a, b⟩ := kv
  have := (mem_contentPairs h).2
  exact List.sizeOf_lt_of_mem this

theorem sizeOf_entry_snd_lt {n : Node} {kv : String × Node}
    (h : kv ∈ entryPairs n) : sizeOf kv.2 < sizeOf n := by
  obtain ⟨k, v⟩ := kv
  exact mem_entryPairs_sizeOf_lt h

/-- Recognizer of the Deletion Marker shape: a mapping whose content is
exactly a "$patch" key scalar followed by a "delete" value scalar.
Modelled from the spec: the external patch consumer, which is not part of
this repository's sources, treats such a mapping value as an instruction
to remove the key it is assigned to. -/
def isDeleteMarker (n : Node) : Bool :=
  match n with
  | .mk .mapping _ _ _ _ [.mk .scalar pk _ _ _ _, .mk .scalar pv _ _ _ _] =>
    pk == "$patch" && pv == "delete"
  | _ => false

/-- Modelled from the spec: keys present in the patch but absent from the
tree being patched are added verbatim, unless their value is the Deletion
Marker (deleting an absent key is a no-op).  The patch-application
operation itself is not part of this repository's sources. -/
def patchAdditions (a p : Node) : List Node :=
  (contentPairs p.content).foldr
    (fun kv acc =>
      if (entryKeys a).contains kv.1.value || isDeleteMarker kv.2 then acc
      else kv.1 :: kv.2 :: acc) []

/-- Modelled from the spec: applying a patch onto a tree by recursive
merge — a Deletion Marker value removes the corresponding key, every other
key overwrites or adds, and two mappings merge recursively.  This
operation is performed by the external machine-config patcher consuming
the emitted patch and is not part of this repository's sources; the
definition follows the spec's description of the target merge contract. -/
def applyPatch (a p : Node) : Node :=
  if a.kind = .mapping ∧ p.kind = .mapping then
    .mk .mapping a.value a.head a.line a.foot
      (((contentPairs a.content).attach.flatMap fun kvh =>
          match hfind : mapFind (entryPairs p) kvh.1.1.value with
          | none => [kvh.1.1, kvh.1.2]
          | some pv =>
            if isDeleteMarker pv then []
            else [kvh.1.1, applyPatch kvh.1.2 pv])
        ++ patchAdditions a p)
  else p
termination_by sizeOf a + sizeOf p
decreasing_by
  have h1 : sizeOf kvh.1.2 < sizeOf a.content := sizeOf_snd_lt_of_mem_contentPairs kvh.2
  have h2 : sizeOf pv < sizeOf p := sizeOf_entryFind_lt hfind
  have h3 := sizeOf_content_lt a
  omega

/-- Applying the patch produced by Diff(A, B) onto A; a nil diff applies
nothing.  Modelled from the spec's round-trip wording. -/
def roundTrip (a b : Node) : Node :=
  match compareNodes a b with
  | none => a
  | some d => applyPatch a d

mutual

/-- Structural equality of trees up to the order of mapping entries:
kinds, values and the three comment channels must match; mapping entries
correspond by key with equivalent values; children of any other kind
correspond pointwise in order. -/
def nodeEquiv (a b : Node) : Bool :=
  a.kind == b.kind && a.value == b.value && a.head == b.head &&
  a.line == b.line && a.foot == b.foot &&
  (if a.kind = .mapping then
    ((entryPairs a).attach.all fun kvh =>
      match hfind : mapFind (entryPairs b) kvh.1.1 with
      | some bv => nodeEquiv kvh.1.2 bv
      | none => false) &&
    ((entryPairs b).all fun kv => (mapFind (entryPairs a) kv.1).isSome)
  else nodeEquivList a.content b.content)
termination_by (sizeOf a + sizeOf b, 1)
decreasing_by
  · have h1 : sizeOf kvh.1.2 < sizeOf a := sizeOf_entry_snd_lt kvh.2
    have h2 : sizeOf bv < sizeOf b := sizeOf_entryFind_lt hfind
    simp_wf
    apply Prod.Lex.left
    omega
  · have h1 := sizeOf_content_lt a
    have h2 := sizeOf_content_lt b
    simp_wf
    apply Prod.Lex.left
    omega

/-- Pointwise `nodeEquiv` on lists of children. -/
def nodeEquivList (xs ys : List Node) : Bool :=
  match xs, ys with
  | [], [] => true
  | x :: xr, y :: yr => nodeEquiv x y && nodeEquivList xr yr
  | _, _ => false
termination_by (sizeOf xs + sizeOf ys, 0)
decreasing_by
  · simp_wf
    apply Prod.Lex.left
    omega
  · simp_wf
    apply Prod.Lex.left
    omega

end

/-- The content of a mapping node in the spec's data model: key and value
nodes alternate, the length is even, and every key node is a scalar. -/
def wfAlt : List Node → Bool
  | [] => true
  | k :: _ :: rest => k.kind == Kind.scalar && wfAlt rest
  | _ => false

/-- No string occurs twice. -/
def nodupKeys : List String → Bool
  | [] => true
  | k :: rest => !(rest.contains k) && nodupKeys rest

mutual

/-- Trees of the spec's data model restricted to mappings and scalars,
with all comment channels empty ("tidy" trees): scalars carry no content,
mappings carry no value and have alternating scalar keys that are pairwise
distinct; sequences, documents and aliases are excluded. -/
def mshape (n : Node) : Bool :=
  n.head == "" && n.line == "" && n.foot == "" &&
  (match n.kind with
   | .scalar => n.content.isEmpty
   | .mapping =>
     n.value == "" && wfAlt n.content && nodupKeys (entryKeys n) && mshapeList n.content
   | _ => false)
termination_by (sizeOf n, 1)
decreasing_by
  have := sizeOf_content_lt n
  simp_wf
  apply Prod.Lex.left
  omega

/-- Pointwise `mshape` on content lists. -/
def mshapeList : List Node → Bool
  | [] => true
  | c :: rest => mshape c && mshapeList rest
termination_by l => (sizeOf l, 0)
decreasing_by
  · simp_wf
    apply Prod.Lex.left
    omega
  · simp_wf
    apply Prod.Lex.left
    omega

end

mutual

/-- No mapping node anywhere in the tree owns an entry whose key is
"$patch" and whose value is the scalar "delete".  Trees with this property
can never collide with the Deletion Marker encoding used by the patch
format. -/
def noPatchDelete (n : Node) : Bool :=
  (if n.kind = .mapping then
    (entryPairs n).all fun kv =>
      !(kv.1 == "$patch" && kv.2.kind == Kind.scalar && kv.2.value == "delete")
   else true) && noPatchDeleteList n.content
termination_by (sizeOf n, 1)
decreasing_by
  have := sizeOf_content_lt n
  simp_wf
  apply Prod.Lex.left
  omega

/-- Pointwise `noPatchDelete` on content lists. -/
def noPatchDeleteList : List Node → Bool
  | [] => true
  | c :: rest => noPatchDelete c && noPatchDeleteList rest
termination_by l => (sizeOf l, 0)
decreasing_by
  · simp_wf
    apply Prod.Lex.left
    omega
  · simp_wf
    apply Prod.Lex.left
    omega

end

/-- At every position where the two trees are both mappings, every key of
the first that is absent from the second has a non-mapping value: the diff
then deletes it with the flat marker rather than a nested per-key delete. -/
def noMapRemoval (a b : Node) : Bool :=
  if a.kind = .mapping ∧ b.kind = .mapping then
    (entryPairs a).attach.all fun kvh =>
      match hfind : mapFind (entryPairs b) kvh.1.1 with
      | none => !(kvh.1.2.kind == Kind.mapping)
      | some bv => noMapRemoval kvh.1.2 bv
  else true
termination_by sizeOf a + sizeOf b
decreasing_by
  have h1 : sizeOf kvh.1.2 < sizeOf a := sizeOf_entry_snd_lt kvh.2
  have h2 : sizeOf bv < sizeOf b := sizeOf_entryFind_lt hfind
  omega

mutual

/-- Trees of the spec's data model (any kind): every mapping node's
content alternates scalar key nodes with value nodes. -/
def wellFormed (n : Node) : Bool :=
  (if n.kind = .mapping then wfAlt n.content else true) && wellFormedList n.content
termination_by (sizeOf n, 1)
decreasing_by
  have := sizeOf_content_lt n
  simp_wf
  apply Prod.Lex.left
  omega

/-- Pointwise `wellFormed` on content lists. -/
def wellFormedList : List Node → Bool
  | [] => true
  | c :: rest => wellFormed c && wellFormedList rest
termination_by l => (sizeOf l, 0)
decreasing_by
  · simp_wf
    apply Prod.Lex.left
    omega
  · simp_wf
    apply Prod.Lex.left
    omega

end

/-- Interleave an entry list back into alternating key-node/value-node
content, each key a fresh scalar as built by `addNodeToDiff`. -/
def flattenEntries (l : List (String × Node)) : List Node :=
  l.flatMap fun kv => [.mk .scalar kv.1 "" "" "" [], kv.2]

/-- The first pass of `compareMappingNodes` viewed as an entry list (key,
diff value) rather than flattened content; proved to agree with
`compareMappingFirst` below. -/
def firstPairs (orig modn : Node) : List (Node × Node) → List (String × Node)
  | [] => []
  | (kNode, _) :: rest =>
    (match mapFind (nodeMap orig) kNode.value, mapFind (nodeMap modn) kNode.value with
     | some origVal, some modVal =>
       (match compareNodes origVal modVal with
        | some changed => [(kNode.value, changed)]
        | none => [])
     | some _, none => []
     | none, some modVal => [(kNode.value, modVal)]
     | none, none => []) ++ firstPairs orig modn rest

/-- The nested per-key deletion mapping the second pass emits for a
removed key whose original value is a mapping. -/
def nestedDeleteNode (origVal : Node) : Node :=
  .mk .mapping "" "" "" ""
    (flattenEntries ((contentPairs origVal.content).map fun kv => (kv.1.value, createDeleteNode)))

/-- The second pass of `compareMappingNodes` viewed as an entry list;
proved to agree with `compareMappingSecond` below. -/
def secondPairs (orig modn : Node) : List (String × Node) :=
  (contentPairs orig.content).foldr
    (fun kv acc =>
      if (processedKeys orig modn).contains kv.1.value then acc
      else
        match mapFind (nodeMap orig) kv.1.value with
        | some origVal =>
          (kv.1.value,
            if origVal.kind = .mapping then nestedDeleteNode origVal else createDeleteNode) :: acc
        | none => acc) []

/-- The Path scheme exactly as the specification words it: each child of a
Mapping is reached by appending "/" and the map key, each child of a
Sequence by appending "/" and the child's decimal position.  Compared
against the scheme the code actually computes. -/
def claimedChildPaths (n : Node) (path : String) : List (String × Node) :=
  match n.kind with
  | .mapping => (entryPairs n).map fun kv => (path ++ "/" ++ kv.1, kv.2)
  | .sequence => n.content.enum.map fun ic => (path ++ "/" ++ toString ic.1, ic.2)
  | _ => []

/-- The kept-entries walk of `applyPatch`'s mapping merge as a plain list
recursion (proved below to agree with the traversal inside `applyPatch`):
entries of the patched tree keep their key node and merge with the patch's
entry for that key. -/
def applyKeptList (p : Node) : List (Node × Node) → List Node
  | [] => []
  | (kn, av) :: rest =>
    (match mapFind (entryPairs p) kn.value with
     | none => [kn, av]
     | some pv => if isDeleteMarker pv then [] else [kn, applyPatch av pv]) ++
      applyKeptList p rest

/-- `applyKeptList` at the level of (key, value) entries. -/
def applyKeptPairs (p : Node) : List (Node × Node) → List (String × Node)
  | [] => []
  | (kn, av) :: rest =>
    (match mapFind (entryPairs p) kn.value with
     | none => [(kn.value, av)]
     | some pv =>
       if isDeleteMarker pv then [] else [(kn.value, applyPatch av pv)]) ++
      applyKeptPairs p rest

/-- `patchAdditions` at the level of (key, value) entries. -/
def additionsPairs (a p : Node) : List (String × Node) :=
  (contentPairs p.content).foldr
    (fun kv acc =>
      if (entryKeys a).contains kv.1.value || isDeleteMarker kv.2 then acc
      else (kv.1.value, kv.2) :: acc) []


/-! ## Theorems -/

/-- C4: the sequence diff is addition-only: it returns exactly the items
of the modified sequence whose Value is absent from the original sequence's
Values, in the modified sequence's order — never removals or reorderings —
and in particular Diff([a,b], [a,b,c]) = [c] while Diff([a,b,c], [a,b]) is
empty. -/
theorem c4_sequence_diff_addition_only :
    (∀ (v1 h1 l1 f1 v2 h2 l2 f2 : String) (oc mc : List Node),
      compareNodes (.mk .sequence v1 h1 l1 f1 oc) (.mk .sequence v2 h2 l2 f2 mc) =
        (if (mc.filter fun m => !((oc.map Node.value).contains m.value)).isEmpty then none
         else some (.mk .sequence "" "" "" ""
           (mc.filter fun m => !((oc.map Node.value).contains m.value))))) ∧
    compareNodes (ysq [ysc "a", ysc "b"]) (ysq [ysc "a", ysc "b", ysc "c"]) =
      some (ysq [ysc "c"]) ∧
    compareNodes (ysq [ysc "a", ysc "b", ysc "c"]) (ysq [ysc "a", ysc "b"]) = none := by
  refine ⟨?_, ?_, ?_⟩
  · intro v1 h1 l1 f1 v2 h2 l2 f2 oc mc
    simp [compareNodes.eq_def, compareSequenceNodes, Node.kind, Node.value, Node.content]
  · simp [compareNodes.eq_def, compareSequenceNodes, ysq, ysc, Node.kind, Node.value,
      Node.content]
  · simp [compareNodes.eq_def, compareSequenceNodes, ysq, ysc, Node.kind, Node.value,
      Node.content]

/-- C5 counterexample: with a target comment carrying trailing white
space, the merged result is not the target's comment followed by a blank
line and the source's comment — `mergeComments` trims both sides first. -/
theorem c5_counterexample :
    mergeComments "first " "second" ≠ "first " ++ "\n\n" ++ "second" := by
  decide

/-- C5 (amended): the three comment channels merge independently per path;
an empty target channel takes the source's, an empty source channel keeps
the target's, and two non-empty channels join as trim(target), a blank
line, trim(source).  Two fragments attaching head comments "first" then
"second" to the same path leave the final head comment "first\n\nsecond". -/
theorem c5_comment_merge :
    (∀ newC : String, mergeComments "" newC = newC) ∧
    (∀ oldC newC : String, oldC ≠ "" → newC = "" → mergeComments oldC newC = oldC) ∧
    (∀ oldC newC : String, oldC ≠ "" → newC ≠ "" →
      mergeComments oldC newC = goTrimSpace oldC ++ "\n\n" ++ goTrimSpace newC) ∧
    applyFragmentComments (.mk .scalar "v" "" "" "" [])
      [some (.mk .scalar "v" "first" "" "" []), some (.mk .scalar "v" "second" "" "" [])] =
      .ok (.mk .scalar "v" "first\n\nsecond" "" "" []) := by
  refine ⟨?_, ?_, ?_, ?_⟩
  · intro newC
    simp [mergeComments]
  · intro oldC newC h1 h2
    simp [mergeComments, h1, h2]
  · intro oldC newC h1 h2
    simp [mergeComments, h1, h2]
  · simp only [applyFragmentComments]
    simp [copyComments.eq_def, copyCommentsList.eq_def, applyComments.eq_def,
      applyCommentsList.eq_def, mapFind, mergeComments, Node.head, Node.line, Node.foot,
      Node.kind, Node.value, Node.content]
    decide

/-- C5 witness: the merge rules evaluated at concrete comments. -/
theorem c5_comment_merge_witness :
    mergeComments "first" "" = "first" ∧
    mergeComments "first" "second" = goTrimSpace "first" ++ "\n\n" ++ goTrimSpace "second" :=
  ⟨c5_comment_merge.2.1 "first" "" (by decide) rfl,
   c5_comment_merge.2.2.1 "first" "second" (by decide) (by decide)⟩

/-- C7 counterexample: a comment-donor fragment that fails to parse aborts
the whole pass — the orchestrator returns the parse error instead of
skipping the fragment and returning the document. -/
theorem c7_counterexample :
    renderFinal true zeroNode zeroNode [none] = .error () := rfl

/-- Fragment comment application aborts at the first fragment whose parse
outcome is an error, whatever was already applied. -/
theorem applyFragmentComments_error {pre : List (Option Node)} (rest : List (Option Node))
    (h : ∀ x ∈ pre, x ≠ none) (t : Node) :
    applyFragmentComments t (pre ++ none :: rest) = .error () := by
  induction pre generalizing t with
  | nil => simp [applyFragmentComments]
  | cons x pre ih =>
    match x, h x (by simp) with
    | some s, _ =>
      simp only [List.cons_append, applyFragmentComments]
      exact ih (fun y hy => h y (by simp [hy])) _

/-- C7 (amended): a parse failure of a comment-donor fragment is fatal,
exactly like a parse failure of the baseline or target documents: the
orchestrator returns the parse error and produces no document, whether or
not full output was requested and whatever fragments follow. -/
theorem c7_fragment_parse_fatal (full : Bool) (origin target : Node)
    (pre rest : List (Option Node)) (h : ∀ x ∈ pre, x ≠ none) :
    renderFinal full origin target (pre ++ none :: rest) = .error () := by
  unfold renderFinal
  exact applyFragmentComments_error rest h _

/-- C7 witness: one well-parsed fragment followed by a failing one. -/
theorem c7_fragment_parse_fatal_witness :
    renderFinal true zeroNode zeroNode [some (ysc "a"), none] = .error () :=
  c7_fragment_parse_fatal true zeroNode zeroNode [some (ysc "a")] [] (by simp)

theorem sizeOf_node_pos (d : Node) : 1 ≤ sizeOf d := by
  cases d; simp; omega

theorem clear_applyComments_aux :
    ∀ (n : Nat) (d : Node), sizeOf d ≤ n → ∀ (p : String) (m : List (String × Node)),
      clearComments (applyComments d p m) = clearComments d := by
  intro n
  induction n with
  | zero =>
    intro d hle
    have := sizeOf_node_pos d
    omega
  | succ n ih =>
    intro d hle p m
    cases d with
    | mk k v h l f c =>
      have hc : sizeOf c ≤ n := by
        have : sizeOf (Node.mk k v h l f c) = 1 + sizeOf k + sizeOf v + sizeOf h +
            sizeOf l + sizeOf f + sizeOf c := by simp
        omega
      have inner : ∀ (c2 : List Node), (∀ x ∈ c2, sizeOf x ≤ n) → ∀ (i : Nat),
          clearCommentsList (applyCommentsList k p i c2 m) = clearCommentsList c2 := by
        intro c2
        induction c2 with
        | nil => intro _ i; simp [applyCommentsList, clearCommentsList]
        | cons x rest ihl =>
          intro hx i
          simp only [applyCommentsList, clearCommentsList]
          rw [ih x (hx x (by simp)) _ m, ihl (fun y hy => hx y (by simp [hy])) (i + 1)]
      simp only [applyComments.eq_def]
      rw [clearComments, clearComments]
      exact congrArg _ (inner c (fun x hx => by
        have h1 : sizeOf x < sizeOf c := List.sizeOf_lt_of_mem hx
        omega) 0)

/-- C9: comment application only ever rewrites the head/line/foot comment
fields: stripping comments from `applyComments`'s result recovers the
comment-stripped input, so every node's kind, value and the shape and
order of its children survive unchanged.  Comment capture
(`copyComments`) returns only the harvested path map and by construction
modifies neither the donor nor the recipient tree. -/
theorem c9_applyComments_frame (d : Node) (p : String) (m : List (String × Node)) :
    clearComments (applyComments d p m) = clearComments d :=
  clear_applyComments_aux (sizeOf d) d (Nat.le_refl _) p m

/-- C6 counterexample: with full output requested, a fragment head comment
is still merged into the result, so the final document is not the full
target rendering verbatim. -/
theorem c6_counterexample :
    renderFinal true zeroNode (ysc "a") [some (.mk .scalar "a" "# x" "" "" [])] ≠
      .ok (ysc "a") := by
  unfold renderFinal
  simp only [if_pos rfl, applyFragmentComments]
  simp [copyComments.eq_def, copyCommentsList.eq_def, applyComments.eq_def,
    applyCommentsList.eq_def, mapFind, mergeComments, ysc, Node.head, Node.line,
    Node.foot, Node.kind, Node.value, Node.content]

theorem applyFragmentComments_ok_clear {frags : List (Option Node)} :
    ∀ {t r : Node}, applyFragmentComments t frags = .ok r →
      clearComments r = clearComments t := by
  induction frags with
  | nil =>
    intro t r h
    simp only [applyFragmentComments] at h
    cases h
    rfl
  | cons x rest ih =>
    intro t r h
    match x with
    | none => simp [applyFragmentComments] at h
    | some s =>
      simp only [applyFragmentComments] at h
      rw [ih h]
      exact c9_applyComments_frame _ _ _

/-- C6 (amended): when full output is requested the orchestrator indeed
never diffs — the result is exactly the fragment-comment application over
the full target — but the final document is that target with the
fragments' comments merged in and re-encoded, not a byte-for-byte copy:
it equals the full target rendering up to comments. -/
theorem c6_full_output (origin target : Node) (frags : List (Option Node)) :
    renderFinal true origin target frags = applyFragmentComments target frags ∧
    (∀ r : Node, renderFinal true origin target frags = .ok r →
      clearComments r = clearComments target) := by
  refine ⟨rfl, ?_⟩
  intro r h
  exact applyFragmentComments_ok_clear h

/-- C6 witness: a concrete full-output run with one commented fragment. -/
theorem c6_full_output_witness :
    clearComments (.mk .scalar "a" "# x" "" "" []) = clearComments (ysc "a") :=
  (c6_full_output zeroNode (ysc "a") [some (.mk .scalar "a" "# x" "" "" [])]).2
    (.mk .scalar "a" "# x" "" "" [])
    (by
      unfold renderFinal
      simp only [if_pos rfl, applyFragmentComments]
      simp [copyComments.eq_def, copyCommentsList.eq_def, applyComments.eq_def,
        applyCommentsList.eq_def, mapFind, mergeComments, ysc, Node.head, Node.line,
        Node.foot, Node.kind, Node.value, Node.content])

/-- C8 counterexample: for the donor mapping with the single entry a: "b"
whose value scalar "b" carries a line comment, capture records that
comment under the path "/b" — built from the child node's own Value — and
nothing under "/a", although the claimed scheme reaches the mapping's
child through its map key as "/a". -/
theorem c8_counterexample :
    mapFind
      (copyComments (.mk .mapping "" "" "" "" [ysc "a", .mk .scalar "b" "" "# c" "" []])
        zeroNode "" []) "/b" = some (.mk .scalar "b" "" "# c" "" []) ∧
    mapFind
      (copyComments (.mk .mapping "" "" "" "" [ysc "a", .mk .scalar "b" "" "# c" "" []])
        zeroNode "" []) "/a" = none ∧
    claimedChildPaths (.mk .mapping "" "" "" "" [ysc "a", .mk .scalar "b" "" "# c" "" []])
      "" = [("/a", .mk .scalar "b" "" "# c" "" [])] := by
  refine ⟨?_, ?_, ?_⟩ <;>
    simp [copyComments.eq_def, copyCommentsList.eq_def, captureChildPath, claimedChildPaths,
      entryPairs, contentPairs, mapFind, ysc, Node.kind, Node.value, Node.head, Node.line,
      Node.foot, Node.content]

/-- C8 (amended): capture and apply do compute one identical path scheme,
but it appends "/" and the child node's own Value for every child of a
non-sequence node — for a mapping this visits key nodes at /mapKey and
value nodes at /value-of-the-child — and for sequence children "/" and
the one-character string of the rune whose code point is the index (Go's
string(i)), not the decimal index.  Correlation is therefore by equality
of these value-dependent path strings, and both walkers consume the
scheme one child at a time with the running index. -/
theorem c8_path_scheme :
    (∀ (pk : Kind) (p : String) (i : Nat) (c : Node),
      captureChildPath pk p i c = applyChildPath pk p i c) ∧
    (∀ (pk : Kind) (p : String) (i : Nat) (c : Node), pk ≠ .sequence →
      captureChildPath pk p i c = p ++ "/" ++ c.value) ∧
    (∀ (p : String) (i : Nat) (c : Node),
      captureChildPath .sequence p i c = p ++ "/" ++ goStringOfInt i) ∧
    (∀ (pk : Kind) (dst : Node) (p : String) (i : Nat) (c : Node) (rest : List Node)
        (m : List (String × Node)),
      copyCommentsList pk dst p i (c :: rest) m =
        copyCommentsList pk dst p (i + 1) rest
          (copyComments c dst (captureChildPath pk p i c) m)) ∧
    (∀ (pk : Kind) (p : String) (i : Nat) (c : Node) (rest : List Node)
        (m : List (String × Node)),
      applyCommentsList pk p i (c :: rest) m =
        applyComments c (applyChildPath pk p i c) m :: applyCommentsList pk p (i + 1) rest m) := by
  refine ⟨fun pk p i c => rfl, ?_, fun p i c => rfl, ?_, ?_⟩
  · intro pk p i c h
    simp [captureChildPath, h]
  · intro pk dst p i c rest m
    rw [copyCommentsList.eq_def]
  · intro pk p i c rest m
    rw [applyCommentsList.eq_def]

/-- C8 witness: the amended scheme evaluated at a mapping child. -/
theorem c8_path_scheme_witness :
    captureChildPath .mapping "" 0 (ysc "b") = "" ++ "/" ++ (ysc "b").value :=
  c8_path_scheme.2.1 .mapping "" 0 (ysc "b") (by decide)

theorem flattenEntries_append (l1 l2 : List (String × Node)) :
    flattenEntries (l1 ++ l2) = flattenEntries l1 ++ flattenEntries l2 := by
  simp [flattenEntries]

theorem flattenEntries_isEmpty (l : List (String × Node)) :
    (flattenEntries l).isEmpty = l.isEmpty := by
  cases l with
  | nil => rfl
  | cons kv rest => simp [flattenEntries]

theorem addNodeToDiff_nil (k : String) (n : Node) :
    addNodeToDiff [] k n = flattenEntries [(k, n)] := rfl

theorem compareMappingFirst_eq (orig modn : Node) (pairs : List (Node × Node)) :
    compareMappingFirst orig modn pairs = flattenEntries (firstPairs orig modn pairs) := by
  induction pairs with
  | nil =>
    rw [compareMappingFirst.eq_def]
    simp [firstPairs, flattenEntries]
  | cons kv rest ih =>
    obtain ⟨kN, vN⟩ := kv
    rw [compareMappingFirst.eq_def]
    simp only [firstPairs, flattenEntries_append]
    rw [← ih]
    cases h1 : mapFind (nodeMap orig) kN.value <;>
      cases h2 : mapFind (nodeMap modn) kN.value <;>
        simp [flattenEntries, addNodeToDiff]
    cases hc : compareNodes _ _ <;> simp [flattenEntries, addNodeToDiff]

theorem flattenEntries_cons (k : String) (n : Node) (l : List (String × Node)) :
    flattenEntries ((k, n) :: l) = .mk .scalar k "" "" "" [] :: n :: flattenEntries l := rfl

theorem addNodeToDiff_nil_append (k : String) (n : Node) (acc : List Node) :
    addNodeToDiff [] k n ++ acc = .mk .scalar k "" "" "" [] :: n :: acc := rfl

theorem nestedDelete_foldr_eq (c : List Node) :
    (contentPairs c).foldr
      (fun nkv nacc => addNodeToDiff [] nkv.1.value createDeleteNode ++ nacc) [] =
    flattenEntries ((contentPairs c).map fun kv => (kv.1.value, createDeleteNode)) := by
  generalize contentPairs c = l
  induction l with
  | nil => rfl
  | cons kv rest ih =>
    rw [List.foldr_cons, List.map_cons, flattenEntries_cons, addNodeToDiff_nil_append, ih]

theorem compareMappingSecond_eq (orig modn : Node) :
    compareMappingSecond orig modn = flattenEntries (secondPairs orig modn) := by
  unfold compareMappingSecond secondPairs
  generalize contentPairs orig.content = l
  induction l with
  | nil => rfl
  | cons kv rest ih =>
    simp only [List.foldr_cons]
    by_cases hp : ((processedKeys orig modn).contains kv.1.value = true)
    · rw [if_pos hp, if_pos hp]
      exact ih
    · rw [if_neg hp, if_neg hp]
      cases h : mapFind (nodeMap orig) kv.1.value with
      | none => simp only [h]; exact ih
      | some origVal =>
        simp only [h]
        by_cases hk : origVal.kind = Kind.mapping
        · rw [if_pos hk, if_pos hk, flattenEntries_cons, addNodeToDiff_nil_append, ih,
            nestedDelete_foldr_eq]
          rfl
        · rw [if_neg hk, if_neg hk, flattenEntries_cons, addNodeToDiff_nil_append, ih]

theorem compareNodes_mapping (orig modn : Node) (ho : orig.kind = .mapping)
    (hm : modn.kind = .mapping) :
    compareNodes orig modn =
      (if (firstPairs orig modn (contentPairs modn.content) ++ secondPairs orig modn).isEmpty
       then none
       else some (.mk .mapping "" "" "" ""
         (flattenEntries
           (firstPairs orig modn (contentPairs modn.content) ++ secondPairs orig modn)))) := by
  rw [compareNodes.eq_def]
  simp only [ho, hm, ne_eq, not_true_eq_false, if_neg, ite_false]
  rw [compareMappingNodes.eq_def]
  rw [compareMappingFirst_eq, compareMappingSecond_eq]
  rw [← flattenEntries_append]
  simp only [flattenEntries_isEmpty]

theorem mapFind_append (l1 l2 : List (String × Node)) (k : String) :
    mapFind (l1 ++ l2) k =
      (match mapFind l1 k with
       | some v => some v
       | none => mapFind l2 k) := by
  induction l1 with
  | nil => simp [mapFind]
  | cons kv rest ih =>
    obtain ⟨k1, v1⟩ := kv
    by_cases h : k1 = k
    · simp [mapFind, h]
    · simp only [List.cons_append, mapFind, if_neg h]
      exact ih

theorem mapFind_eq_none_iff {l : List (String × Node)} {k : String} :
    mapFind l k = none ↔ k ∉ l.map Prod.fst := by
  induction l with
  | nil => simp [mapFind]
  | cons kv rest ih =>
    obtain ⟨k1, v1⟩ := kv
    simp only [mapFind, List.map_cons, List.mem_cons]
    by_cases h : k1 = k
    · subst h
      simp
    · rw [if_neg h, ih]
      constructor
      · intro hn hor
        rcases hor with h1 | h1
        · exact h h1.symm
        · exact hn h1
      · exact fun hn h1 => hn (Or.inr h1)

theorem nodupKeys_cons {k : String} {ks : List String} :
    nodupKeys (k :: ks) = (!(ks.contains k) && nodupKeys ks) := rfl

theorem contains_false_not_mem {ks : List String} {k : String}
    (h : ks.contains k = false) : k ∉ ks := by
  intro hmem
  have h2 : ks.contains k = true := List.elem_iff.mpr hmem
  rw [h2] at h
  cases h

theorem mapFind_of_mem_nodup {l : List (String × Node)} {k : String} {v : Node}
    (hnd : nodupKeys (l.map Prod.fst) = true) (h : (k, v) ∈ l) : mapFind l k = some v := by
  induction l with
  | nil => simp at h
  | cons kv rest ih =>
    obtain ⟨k1, v1⟩ := kv
    rw [List.map_cons, nodupKeys_cons] at hnd
    have hnd1 := (Bool.and_eq_true _ _).mp hnd
    have hcf : (rest.map Prod.fst).contains k1 = false := by simpa using hnd1.1
    have hnotin : k1 ∉ rest.map Prod.fst := contains_false_not_mem hcf
    rcases List.mem_cons.mp h with h1 | h1
    · injection h1 with hk hv
      subst hk
      subst hv
      simp [mapFind]
    · have hk1 : k1 ≠ k := by
        intro he
        subst he
        exact hnotin (List.mem_map.mpr ⟨(k1, v), h1, rfl⟩)
      simp only [mapFind, if_neg hk1]
      exact ih hnd1.2 h1

theorem mapFind_reverse_eq {l : List (String × Node)}
    (hnd : nodupKeys (l.map Prod.fst) = true) (k : String) :
    mapFind l.reverse k = mapFind l k := by
  induction l with
  | nil => rfl
  | cons kv rest ih =>
    obtain ⟨k1, v1⟩ := kv
    rw [List.map_cons, nodupKeys_cons] at hnd
    have hnd1 := (Bool.and_eq_true _ _).mp hnd
    have hcf : (rest.map Prod.fst).contains k1 = false := by simpa using hnd1.1
    have hnotin : k1 ∉ rest.map Prod.fst := contains_false_not_mem hcf
    rw [List.reverse_cons, mapFind_append]
    by_cases h : k1 = k
    · subst h
      have hnone : mapFind rest.reverse k1 = none := by
        rw [mapFind_eq_none_iff]
        simpa using hnotin
      rw [hnone]
      simp [mapFind]
    · rw [ih hnd1.2]
      cases hr : mapFind rest k with
      | some v => simp [mapFind, if_neg h, hr]
      | none => simp [mapFind, if_neg h, hr]

theorem wfAlt_keys_scalar : ∀ {c : List Node}, wfAlt c = true →
    ∀ kv ∈ contentPairs c, kv.1.kind = Kind.scalar
  | [], _, kv, hkv => by simp [contentPairs] at hkv
  | [x], h, kv, hkv => by simp [contentPairs] at hkv
  | k :: v :: rest, hwf, kv, hkv => by
    rw [show wfAlt (k :: v :: rest) = (k.kind == Kind.scalar && wfAlt rest) from rfl] at hwf
    have h1 := (Bool.and_eq_true _ _).mp hwf
    rcases List.mem_cons.mp (by simpa [contentPairs] using hkv) with h2 | h2
    · rw [h2]
      exact beq_iff_eq.mp h1.1
    · exact wfAlt_keys_scalar h1.2 kv h2

theorem filterMap_scalar_eq_map {l : List (Node × Node)}
    (hsc : ∀ kv ∈ l, kv.1.kind = Kind.scalar) :
    l.filterMap (fun kv => if kv.1.kind = Kind.scalar then some (kv.1.value, kv.2) else none) =
    l.map fun kv => (kv.1.value, kv.2) := by
  induction l with
  | nil => rfl
  | cons kv rest ih =>
    rw [List.filterMap_cons, List.map_cons, if_pos (hsc kv (by simp)),
      ih fun x hx => hsc x (by simp [hx])]

theorem nodeMap_eq_reverse_entry {n : Node} (hwf : wfAlt n.content = true) :
    nodeMap n = (entryPairs n).reverse := by
  rw [nodeMap, entryPairs]
  congr 1
  exact filterMap_scalar_eq_map (wfAlt_keys_scalar hwf)

theorem entryKeys_map_fst (n : Node) : (entryPairs n).map Prod.fst = entryKeys n := rfl

theorem nodeMap_find_eq {n : Node} (hwf : wfAlt n.content = true)
    (hnd : nodupKeys (entryKeys n) = true) (k : String) :
    mapFind (nodeMap n) k = mapFind (entryPairs n) k := by
  rw [nodeMap_eq_reverse_entry hwf]
  exact mapFind_reverse_eq (by rw [entryKeys_map_fst]; exact hnd) k

theorem mem_contains {ks : List String} {k : String} (h : k ∈ ks) :
    ks.contains k = true :=
  List.elem_iff.mpr h

theorem firstPairs_self (t : Node)
    (ih : ∀ v : Node, sizeOf v < sizeOf t → compareNodes v v = none) :
    ∀ pairs : List (Node × Node), firstPairs t t pairs = [] := by
  intro pairs
  induction pairs with
  | nil => rfl
  | cons kv rest ihp =>
    obtain ⟨kN, vN⟩ := kv
    rw [firstPairs]
    cases h : mapFind (nodeMap t) kN.value with
    | none => simpa [h] using ihp
    | some v =>
      have hc := ih v (sizeOf_nodeMap_lt h)
      simpa [h, hc] using ihp

theorem secondPairs_self (t : Node) : secondPairs t t = [] := by
  rw [secondPairs]
  have hme : ∀ kv ∈ contentPairs t.content,
      (mapFind (nodeMap t) kv.1.value).isSome = true →
      (processedKeys t t).contains kv.1.value = true := by
    intro kv hkv hs
    apply mem_contains
    rw [processedKeys]
    exact List.mem_filterMap.mpr ⟨kv, hkv, by simp [hs]⟩
  generalize hl : contentPairs t.content = l
  rw [hl] at hme
  clear hl
  induction l with
  | nil => rfl
  | cons kv rest ihl =>
    rw [List.foldr_cons]
    by_cases hp : ((processedKeys t t).contains kv.1.value = true)
    · rw [if_pos hp]
      exact ihl fun x hx => hme x (by simp [hx])
    · rw [if_neg hp]
      cases h : mapFind (nodeMap t) kv.1.value with
      | none => simpa using ihl fun x hx => hme x (by simp [hx])
      | some v =>
        exact absurd (hme kv (by simp) (by simp [h])) hp

theorem compareSequenceNodes_self (t : Node) : compareSequenceNodes t t = none := by
  simp only [compareSequenceNodes]
  have hfil : (t.content.filter fun m => !((t.content.map Node.value).contains m.value)) = [] := by
    rw [List.filter_eq_nil_iff]
    intro a ha
    have hmem : a.value ∈ t.content.map Node.value := List.mem_map.mpr ⟨a, ha, rfl⟩
    rw [mem_contains hmem]
    simp
  simp only [hfil]
  rfl

theorem compareNodes_self_aux : ∀ (n : Nat) (t : Node), sizeOf t ≤ n →
    compareNodes t t = none := by
  intro n
  induction n with
  | zero =>
    intro t h
    have := sizeOf_node_pos t
    omega
  | succ n ih =>
    intro t hle
    have ihs : ∀ v : Node, sizeOf v < sizeOf t → compareNodes v v = none := by
      intro v hv
      exact ih v (by omega)
    rw [compareNodes.eq_def]
    simp only [ne_eq, not_true_eq_false, if_false]
    cases hk : t.kind with
    | mapping =>
      rw [compareMappingNodes.eq_def, compareMappingFirst_eq, firstPairs_self t ihs,
        compareMappingSecond_eq, secondPairs_self]
      rfl
    | sequence => exact compareSequenceNodes_self t
    | scalar => simp
    | zero => rfl
    | document => rfl
    | «alias» => rfl

/-- The structural diff of any tree against itself is empty. -/
theorem compareNodes_self (t : Node) : compareNodes t t = none :=
  compareNodes_self_aux (sizeOf t) t (Nat.le_refl _)

/-- C2: for every tree of the spec's data model, Diff(T, T) is the empty
(nil) result, and DiffYAMLs on two byte-identical parseable documents —
which parse to the same tree — returns the empty output with no error. -/
theorem c2_diff_self (t : Node) (hwf : wellFormed t = true) :
    compareNodes t t = none ∧ diffYAMLs t t = none :=
  ⟨compareNodes_self t, by rw [diffYAMLs]; exact compareNodes_self _⟩

/-- C2 witness: a concrete one-entry mapping document. -/
theorem c2_diff_self_witness :
    compareNodes (ymp [("a", ysc "1")]) (ymp [("a", ysc "1")]) = none ∧
    diffYAMLs (ymp [("a", ysc "1")]) (ymp [("a", ysc "1")]) = none :=
  c2_diff_self _ (by
    simp [wellFormed.eq_def, wellFormedList.eq_def, wfAlt, ymp, ysc, Node.kind,
      Node.content])

mutual

theorem clearComments_idem : ∀ n : Node, clearComments (clearComments n) = clearComments n
  | .mk k v h l f c => by
    show Node.mk k v "" "" "" (clearCommentsList (clearCommentsList c)) =
      Node.mk k v "" "" "" (clearCommentsList c)
    rw [clearCommentsList_idem c]

theorem clearCommentsList_idem :
    ∀ l : List Node, clearCommentsList (clearCommentsList l) = clearCommentsList l
  | [] => rfl
  | c :: rest => by
    show clearComments (clearComments c) :: clearCommentsList (clearCommentsList rest) =
      clearComments c :: clearCommentsList rest
    rw [clearComments_idem c, clearCommentsList_idem rest]

end

theorem clearCommentsList_fixed_mem {l : List Node} (h : clearCommentsList l = l) :
    ∀ x ∈ l, clearComments x = x := by
  induction l with
  | nil => simp
  | cons c rest ih =>
    rw [show clearCommentsList (c :: rest) = clearComments c :: clearCommentsList rest
      from rfl] at h
    injection h with h1 h2
    intro x hx
    rcases List.mem_cons.mp hx with h3 | h3
    · rw [h3]; exact h1
    · exact ih h2 x h3

theorem clear_fixed_children {n : Node} (h : clearComments n = n) :
    ∀ x ∈ n.content, clearComments x = x := by
  cases n with
  | mk k v hh ll ff c =>
    rw [show clearComments (Node.mk k v hh ll ff c) =
      Node.mk k v "" "" "" (clearCommentsList c) from rfl] at h
    injection h with _ _ _ _ _ hc
    exact clearCommentsList_fixed_mem hc

theorem clearCommentsList_fixed_of_mem {l : List Node}
    (h : ∀ x ∈ l, clearComments x = x) : clearCommentsList l = l := by
  induction l with
  | nil => rfl
  | cons c rest ih =>
    rw [show clearCommentsList (c :: rest) = clearComments c :: clearCommentsList rest
      from rfl, h c (by simp), ih fun x hx => h x (by simp [hx])]

theorem nodeMap_find_mem {n : Node} {k : String} {v : Node}
    (h : mapFind (nodeMap n) k = some v) : v ∈ n.content := by
  have hmem := mapFind_mem h
  simp only [nodeMap, List.mem_reverse, List.mem_filterMap] at hmem
  obtain ⟨⟨kn, vn⟩, hpair, hif⟩ := hmem
  have hv : vn = v := by
    by_cases hk : kn.kind = Kind.scalar <;> simp [hk] at hif
    exact hif.2
  subst hv
  exact (mem_contentPairs hpair).2

theorem entryFind_mem {n : Node} {k : String} {v : Node}
    (h : mapFind (entryPairs n) k = some v) : v ∈ n.content := by
  have hmem := mapFind_mem h
  simp only [entryPairs, List.mem_map] at hmem
  obtain ⟨⟨kn, vn⟩, hpair, heq⟩ := hmem
  have hv : vn = v := congrArg Prod.snd heq
  subst hv
  exact (mem_contentPairs hpair).2

theorem compareNodes_kind_ne {a b : Node} (h : a.kind ≠ b.kind) :
    compareNodes a b = some b := by
  rw [compareNodes.eq_def]
  simp [h]

theorem compareNodes_scalar {a b : Node} (ha : a.kind = .scalar) (hb : b.kind = .scalar) :
    compareNodes a b = if a.value ≠ b.value then some b else none := by
  rw [compareNodes.eq_def]
  simp [ha, hb]

theorem compareNodes_seq {a b : Node} (ha : a.kind = .sequence) (hb : b.kind = .sequence) :
    compareNodes a b = compareSequenceNodes a b := by
  rw [compareNodes.eq_def]
  simp [ha, hb]

theorem compareNodes_other {a b : Node} (hk : a.kind = b.kind)
    (h : a.kind = Kind.zero ∨ a.kind = Kind.document ∨ a.kind = Kind.alias) :
    compareNodes a b = none := by
  rw [compareNodes.eq_def]
  rcases h with h | h | h <;> simp [hk ▸ h, ← hk, h]

theorem mem_firstPairs {a b : Node} {pairs : List (Node × Node)} {k : String} {v : Node}
    (h : (k, v) ∈ firstPairs a b pairs) :
    (∃ ov mv, mapFind (nodeMap a) k = some ov ∧ mapFind (nodeMap b) k = some mv ∧
      compareNodes ov mv = some v) ∨
    (mapFind (nodeMap a) k = none ∧ mapFind (nodeMap b) k = some v) := by
  induction pairs with
  | nil => simp [firstPairs] at h
  | cons kv rest ih =>
    obtain ⟨kN, vN⟩ := kv
    rw [firstPairs] at h
    rcases List.mem_append.mp h with h1 | h1
    · cases h2 : mapFind (nodeMap a) kN.value with
      | none =>
        cases h3 : mapFind (nodeMap b) kN.value with
        | none => simp [h2, h3] at h1
        | some mv =>
          simp only [h2, h3, List.mem_singleton] at h1
          injection h1 with hk hv
          subst hk
          subst hv
          exact Or.inr ⟨h2, h3⟩
      | some ov =>
        cases h3 : mapFind (nodeMap b) kN.value with
        | none => simp [h2, h3] at h1
        | some mv =>
          simp only [h2, h3] at h1
          cases h4 : compareNodes ov mv with
          | none => simp [h4] at h1
          | some changed =>
            simp only [h4, List.mem_singleton] at h1
            injection h1 with hk hv
            subst hk
            subst hv
            exact Or.inl ⟨ov, mv, h2, h3, h4⟩
    · exact ih h1

theorem mem_secondPairs {a b : Node} {k : String} {v : Node}
    (h : (k, v) ∈ secondPairs a b) :
    ∃ ov, mapFind (nodeMap a) k = some ov ∧
      (v = nestedDeleteNode ov ∨ v = createDeleteNode) := by
  rw [secondPairs] at h
  generalize hl : contentPairs a.content = l at h
  clear hl
  induction l with
  | nil => simp at h
  | cons kv rest ih =>
    rw [List.foldr_cons] at h
    by_cases hp : ((processedKeys a b).contains kv.1.value = true)
    · rw [if_pos hp] at h
      exact ih h
    · rw [if_neg hp] at h
      cases h2 : mapFind (nodeMap a) kv.1.value with
      | none =>
        simp only [h2] at h
        exact ih h
      | some ov =>
        simp only [h2, List.mem_cons] at h
        rcases h with h1 | h1
        · injection h1 with hk hv
          subst hk
          refine ⟨ov, h2, ?_⟩
          by_cases hm : ov.kind = Kind.mapping
          · exact Or.inl (by rw [hv, if_pos hm])
          · exact Or.inr (by rw [hv, if_neg hm])
        · exact ih h1

theorem clear_flattenEntries {ps : List (String × Node)}
    (h : ∀ kv ∈ ps, clearComments kv.2 = kv.2) :
    clearCommentsList (flattenEntries ps) = flattenEntries ps := by
  induction ps with
  | nil => rfl
  | cons kv rest ih =>
    obtain ⟨k, v⟩ := kv
    rw [flattenEntries_cons]
    rw [show clearCommentsList (Node.mk .scalar k "" "" "" [] :: v :: flattenEntries rest) =
      clearComments (Node.mk .scalar k "" "" "" []) :: clearComments v ::
        clearCommentsList (flattenEntries rest) from rfl]
    rw [show clearComments (Node.mk .scalar k "" "" "" []) =
      Node.mk .scalar k "" "" "" [] from rfl]
    rw [h (k, v) (by simp), ih fun x hx => h x (by simp [hx])]

theorem clear_createDeleteNode : clearComments createDeleteNode = createDeleteNode := rfl

theorem clear_nestedDeleteNode (ov : Node) :
    clearComments (nestedDeleteNode ov) = nestedDeleteNode ov := by
  show Node.mk .mapping "" "" "" ""
    (clearCommentsList (flattenEntries ((contentPairs ov.content).map
      fun kv => (kv.1.value, createDeleteNode)))) = nestedDeleteNode ov
  rw [clear_flattenEntries]
  · rfl
  · intro kv hkv
    rcases List.mem_map.mp hkv with ⟨x, _, hx⟩
    rw [← hx]
    rfl

theorem commentFree_compare_aux : ∀ (fuel : Nat), ∀ {a b : Node},
    sizeOf a + sizeOf b ≤ fuel → clearComments a = a → clearComments b = b →
    ∀ {d : Node}, compareNodes a b = some d → clearComments d = d := by
  intro fuel
  induction fuel with
  | zero =>
    intro a b hle
    have := sizeOf_node_pos a
    have := sizeOf_node_pos b
    omega
  | succ n ih =>
    intro a b hle ha hb d hd
    by_cases hk : a.kind = b.kind
    · cases hka : a.kind with
      | mapping =>
        rw [compareNodes_mapping a b hka (hk ▸ hka)] at hd
        by_cases he :
            ((firstPairs a b (contentPairs b.content) ++ secondPairs a b).isEmpty = true)
        · rw [if_pos he] at hd
          cases hd
        · rw [if_neg he] at hd
          injection hd with hd1
          rw [← hd1]
          rw [show clearComments (Node.mk .mapping "" "" "" ""
            (flattenEntries (firstPairs a b (contentPairs b.content) ++ secondPairs a b))) =
            Node.mk .mapping "" "" "" "" (clearCommentsList (flattenEntries
              (firstPairs a b (contentPairs b.content) ++ secondPairs a b))) from rfl]
          rw [clear_flattenEntries]
          intro kv hkv
          rcases List.mem_append.mp hkv with h1 | h1
          · obtain ⟨k, v⟩ := kv
            rcases mem_firstPairs h1 with ⟨ov, mv, hov, hmv, hcmp⟩ | ⟨hov, hmv⟩
            · have hova : ov ∈ a.content := nodeMap_find_mem hov
              have hmvb : mv ∈ b.content := nodeMap_find_mem hmv
              have hsz : sizeOf ov + sizeOf mv ≤ n := by
                have s1 : sizeOf ov < sizeOf a.content := List.sizeOf_lt_of_mem hova
                have s2 : sizeOf mv < sizeOf b.content := List.sizeOf_lt_of_mem hmvb
                have s3 := sizeOf_content_lt a
                have s4 := sizeOf_content_lt b
                omega
              exact ih hsz (clear_fixed_children ha ov hova)
                (clear_fixed_children hb mv hmvb) hcmp
            · exact clear_fixed_children hb v (nodeMap_find_mem hmv)
          · obtain ⟨k, v⟩ := kv
            rcases mem_secondPairs h1 with ⟨ov, hov, hv | hv⟩
            · rw [hv]
              exact clear_nestedDeleteNode ov
            · rw [hv]
              exact clear_createDeleteNode
      | sequence =>
        rw [compareNodes_seq hka (hk ▸ hka)] at hd
        simp only [compareSequenceNodes] at hd
        by_cases he :
            ((b.content.filter fun m => !((a.content.map Node.value).contains m.value)).isEmpty
              = true)
        · rw [if_pos he] at hd
          cases hd
        · rw [if_neg he] at hd
          injection hd with hd1
          rw [← hd1]
          rw [show clearComments (Node.mk .sequence "" "" "" ""
            (b.content.filter fun m => !((a.content.map Node.value).contains m.value))) =
            Node.mk .sequence "" "" "" "" (clearCommentsList
              (b.content.filter fun m => !((a.content.map Node.value).contains m.value)))
            from rfl]
          rw [clearCommentsList_fixed_of_mem]
          intro x hx
          exact clear_fixed_children hb x (List.mem_of_mem_filter hx)
      | scalar =>
        rw [compareNodes_scalar hka (hk ▸ hka)] at hd
        by_cases hv : (a.value ≠ b.value)
        · rw [if_pos hv] at hd
          injection hd with hd1
          rw [← hd1]
          exact hb
        · rw [if_neg hv] at hd
          cases hd
      | zero =>
        rw [compareNodes_other hk (Or.inl hka)] at hd
        cases hd
      | document =>
        rw [compareNodes_other hk (Or.inr (Or.inl hka))] at hd
        cases hd
      | «alias» =>
        rw [compareNodes_other hk (Or.inr (Or.inr hka))] at hd
        cases hd
    · rw [compareNodes_kind_ne hk] at hd
      injection hd with hd1
      rw [← hd1]
      exact hb

/-- C10: DiffYAMLs strips all comments from both inputs before comparing,
and the comparison reads only kinds, values and children: the diff is
invariant under comments, two documents that differ only in comments diff
to the empty result, and every node of a non-empty diff output carries no
comment (stripping the output is the identity). -/
theorem c10_diff_ignores_comments :
    (∀ a b : Node, diffYAMLs a b = diffYAMLs (clearComments a) (clearComments b)) ∧
    (∀ a b : Node, clearComments a = clearComments b → diffYAMLs a b = none) ∧
    (∀ a b d : Node, diffYAMLs a b = some d → clearComments d = d) := by
  refine ⟨?_, ?_, ?_⟩
  · intro a b
    rw [diffYAMLs, diffYAMLs, clearComments_idem, clearComments_idem]
  · intro a b h
    rw [diffYAMLs, h]
    exact compareNodes_self _
  · intro a b d hd
    rw [diffYAMLs] at hd
    exact commentFree_compare_aux (sizeOf (clearComments a) + sizeOf (clearComments b))
      (Nat.le_refl _) (clearComments_idem a) (clearComments_idem b) hd

/-- C10 witness: two scalar documents that differ only in a head comment
diff to nothing, and a real scalar change yields a comment-free output. -/
theorem c10_diff_ignores_comments_witness :
    diffYAMLs (.mk .scalar "x" "# hi" "" "" []) (ysc "x") = none ∧
    clearComments (ysc "2") = ysc "2" :=
  ⟨c10_diff_ignores_comments.2.1 (.mk .scalar "x" "# hi" "" "" []) (ysc "x") rfl,
   c10_diff_ignores_comments.2.2 (ysc "1") (ysc "2") (ysc "2") (by
    rw [diffYAMLs]
    rw [show clearComments (ysc "1") = ysc "1" from rfl,
      show clearComments (ysc "2") = ysc "2" from rfl]
    rw [compareNodes_scalar (show (ysc "1").kind = Kind.scalar from rfl)
      (show (ysc "2").kind = Kind.scalar from rfl)]
    simp [ysc, Node.value])⟩

theorem entryPairs_flatten (v h l f : String) (ps : List (String × Node)) :
    entryPairs (.mk .mapping v h l f (flattenEntries ps)) = ps := by
  rw [entryPairs]
  rw [show (Node.mk .mapping v h l f (flattenEntries ps)).content = flattenEntries ps from rfl]
  induction ps with
  | nil => rfl
  | cons kv rest ih =>
    obtain ⟨k, x⟩ := kv
    rw [flattenEntries_cons]
    rw [show contentPairs (Node.mk .scalar k "" "" "" [] :: x :: flattenEntries rest) =
      (Node.mk .scalar k "" "" "" [], x) :: contentPairs (flattenEntries rest) from rfl]
    rw [List.map_cons, ih]
    rfl

theorem entryKeys_eq (n : Node) :
    entryKeys n = (contentPairs n.content).map fun kv => kv.1.value := by
  rw [entryKeys, entryPairs, List.map_map]
  rfl

theorem processedKeys_subset {orig modn : Node} {x : String}
    (h : x ∈ processedKeys orig modn) : x ∈ entryKeys modn := by
  rw [processedKeys] at h
  rcases List.mem_filterMap.mp h with ⟨kv, hkv, hif⟩
  by_cases hs : (mapFind (nodeMap orig) kv.1.value).isSome = true
  · rw [if_pos hs] at hif
    injection hif with hx
    rw [← hx, entryKeys_eq]
    exact List.mem_map.mpr ⟨kv, hkv, rfl⟩
  · rw [if_neg hs] at hif
    cases hif

theorem firstPairs_keys {orig modn : Node} {pairs : List (Node × Node)} {k : String}
    (hk : ∀ kv ∈ pairs, kv.1.value ≠ k) :
    mapFind (firstPairs orig modn pairs) k = none := by
  induction pairs with
  | nil => rfl
  | cons kv rest ih =>
    obtain ⟨kN, vN⟩ := kv
    have hne : kN.value ≠ k := hk (kN, vN) (by simp)
    have hrest := ih fun x hx => hk x (by simp [hx])
    rw [firstPairs, mapFind_append]
    cases h2 : mapFind (nodeMap orig) kN.value with
    | none =>
      cases h3 : mapFind (nodeMap modn) kN.value with
      | none => simp [mapFind, hrest]
      | some mv => simp [mapFind, hne, hrest]
    | some ov =>
      cases h3 : mapFind (nodeMap modn) kN.value with
      | none => simp [mapFind, hrest]
      | some mv =>
        cases h4 : compareNodes ov mv with
        | none => simp [h4, mapFind, hrest]
        | some ch => simp [h4, mapFind, hne, hrest]

theorem secondPairs_find {orig modn : Node} {k : String} {v : Node}
    (hnp : (processedKeys orig modn).contains k = false)
    (hfo : mapFind (nodeMap orig) k = some v)
    (hex : ∃ kv ∈ contentPairs orig.content, kv.1.value = k) :
    mapFind (secondPairs orig modn) k =
      some (if v.kind = .mapping then nestedDeleteNode v else createDeleteNode) := by
  rw [secondPairs]
  generalize hl : contentPairs orig.content = l at hex
  clear hl
  induction l with
  | nil => simp at hex
  | cons kv rest ih =>
    rw [List.foldr_cons]
    by_cases hk1 : kv.1.value = k
    · rw [hk1, if_neg (by rw [hnp]; simp), hfo]
      simp [mapFind]
    · have hex2 : ∃ kv ∈ rest, kv.1.value = k := by
        rcases hex with ⟨x, hx, hxk⟩
        rcases List.mem_cons.mp hx with h1 | h1
        · exact absurd (h1 ▸ hxk) hk1
        · exact ⟨x, h1, hxk⟩
      by_cases hp : ((processedKeys orig modn).contains kv.1.value = true)
      · rw [if_pos hp]
        exact ih hex2
      · rw [if_neg hp]
        cases h2 : mapFind (nodeMap orig) kv.1.value with
        | none => exact ih hex2
        | some ov =>
          simp only [mapFind, if_neg hk1]
          exact ih hex2

theorem mapFind_append_ne_nil {l1 l2 : List (String × Node)} {k : String} {v : Node}
    (h : mapFind (l1 ++ l2) k = some v) : (l1 ++ l2).isEmpty = false := by
  cases hl : l1 ++ l2 with
  | nil => rw [hl] at h; cases h
  | cons x rest => rfl

/-- C3: in the mapping diff, every key of the original absent from the
modified mapping is emitted in the diff with a nested per-key deletion
mapping when its original value is itself a mapping, and with the flat
Deletion Marker otherwise; in particular Diff over a removed nested
mapping deletes each inner key individually, and a removed scalar key gets
the flat marker. -/
theorem c3_granular_nested_deletion :
    (∀ (orig modn : Node) (k : String) (v : Node),
      orig.kind = .mapping → modn.kind = .mapping →
      wfAlt orig.content = true → nodupKeys (entryKeys orig) = true →
      (k, v) ∈ entryPairs orig → k ∉ entryKeys modn →
      ∃ D, compareNodes orig modn = some D ∧
        mapFind (entryPairs D) k =
          some (if v.kind = .mapping then nestedDeleteNode v else createDeleteNode)) ∧
    compareNodes (ymp [("a", ymp [("x", ysc "1"), ("y", ysc "2")])]) (ymp []) =
      some (ymp [("a", ymp [("x", createDeleteNode), ("y", createDeleteNode)])]) ∧
    compareNodes (ymp [("a", ysc "1")]) (ymp []) =
      some (ymp [("a", createDeleteNode)]) := by
  refine ⟨?_, ?_, ?_⟩
  · intro orig modn k v ho hm hwf hnd hmem habs
    have hfo : mapFind (nodeMap orig) k = some v := by
      rw [nodeMap_find_eq hwf hnd]
      exact mapFind_of_mem_nodup (by rw [entryKeys_map_fst]; exact hnd) hmem
    have hnp : (processedKeys orig modn).contains k = false := by
      cases hc : (processedKeys orig modn).contains k with
      | false => rfl
      | true =>
        exact absurd (processedKeys_subset (List.mem_of_elem_eq_true hc)) habs
    have hex : ∃ kv ∈ contentPairs orig.content, kv.1.value = k := by
      rcases List.mem_map.mp (show (k, v) ∈ (contentPairs orig.content).map
        (fun kv => (kv.1.value, kv.2)) from hmem) with ⟨kv, hkv, heq⟩
      exact ⟨kv, hkv, congrArg Prod.fst heq⟩
    have hsecond := secondPairs_find hnp hfo hex
    have hfirstnone : mapFind (firstPairs orig modn (contentPairs modn.content)) k = none := by
      apply firstPairs_keys
      intro kv hkv hke
      apply habs
      rw [← hke, entryKeys_eq]
      exact List.mem_map.mpr ⟨kv, hkv, rfl⟩
    have happ : mapFind (firstPairs orig modn (contentPairs modn.content) ++
        secondPairs orig modn) k =
        some (if v.kind = .mapping then nestedDeleteNode v else createDeleteNode) := by
      rw [mapFind_append, hfirstnone, hsecond]
    refine ⟨.mk .mapping "" "" "" "" (flattenEntries
      (firstPairs orig modn (contentPairs modn.content) ++ secondPairs orig modn)), ?_, ?_⟩
    · rw [compareNodes_mapping orig modn ho hm, if_neg]
      rw [mapFind_append_ne_nil happ]
      simp
    · rw [entryPairs_flatten]
      exact happ
  · simp [compareNodes.eq_def, compareMappingNodes.eq_def, compareMappingFirst.eq_def,
      compareMappingSecond, processedKeys, nodeMap, contentPairs, mapFind, addNodeToDiff,
      ymp, ysc, Node.kind, Node.value, Node.content, createDeleteNode]
  · simp [compareNodes.eq_def, compareMappingNodes.eq_def, compareMappingFirst.eq_def,
      compareMappingSecond, processedKeys, nodeMap, contentPairs, mapFind, addNodeToDiff,
      ymp, ysc, Node.kind, Node.value, Node.content, createDeleteNode]

/-- C3 witness: removing the sole scalar-valued key of a one-entry mapping
emits the flat Deletion Marker for it. -/
theorem c3_granular_nested_deletion_witness :
    ∃ D, compareNodes (ymp [("a", ysc "1")]) (ymp []) = some D ∧
      mapFind (entryPairs D) "a" =
        some (if (ysc "1").kind = .mapping then nestedDeleteNode (ysc "1")
          else createDeleteNode) :=
  c3_granular_nested_deletion.1 (ymp [("a", ysc "1")]) (ymp []) "a" (ysc "1") rfl rfl
    (by decide)
    (by decide)
    (by simp [entryPairs, contentPairs, ymp, ysc, Node.value])
    (by decide)

theorem applyPatch_not_mapping {a p : Node} (h : ¬(a.kind = .mapping ∧ p.kind = .mapping)) :
    applyPatch a p = p := by
  rw [applyPatch.eq_def, if_neg h]

theorem applyKeptList_cons (p kn av : Node) (rest : List (Node × Node)) :
    applyKeptList p ((kn, av) :: rest) =
      (match mapFind (entryPairs p) kn.value with
       | none => [kn, av]
       | some pv => if isDeleteMarker pv then [] else [kn, applyPatch av pv]) ++
        applyKeptList p rest := rfl

theorem applyKeptPairs_cons (p kn av : Node) (rest : List (Node × Node)) :
    applyKeptPairs p ((kn, av) :: rest) =
      (match mapFind (entryPairs p) kn.value with
       | none => [(kn.value, av)]
       | some pv =>
         if isDeleteMarker pv then [] else [(kn.value, applyPatch av pv)]) ++
        applyKeptPairs p rest := rfl

theorem attach_flatMap_applyKept (p : Node) (l : List (Node × Node)) :
    (l.attach.flatMap fun kvh =>
      match _hfind : mapFind (entryPairs p) kvh.1.1.value with
      | none => [kvh.1.1, kvh.1.2]
      | some pv =>
        if isDeleteMarker pv then [] else [kvh.1.1, applyPatch kvh.1.2 pv]) =
      applyKeptList p l := by
  induction l with
  | nil => rfl
  | cons kv rest ih =>
    obtain ⟨kn, av⟩ := kv
    simp only [List.attach_cons, List.flatMap_cons, List.flatMap_map]
    rw [applyKeptList_cons, ← ih]
    cases h2 : mapFind (entryPairs p) kn.value <;> rfl

theorem applyPatch_mapping {a p : Node} (ha : a.kind = .mapping) (hp : p.kind = .mapping) :
    applyPatch a p = .mk .mapping a.value a.head a.line a.foot
      (applyKeptList p (contentPairs a.content) ++ patchAdditions a p) := by
  rw [applyPatch.eq_def, if_pos ⟨ha, hp⟩]
  congr 1
  conv_lhs => rw [attach_flatMap_applyKept]

theorem applyKeptList_eq_flatten {p : Node} :
    ∀ {pairs : List (Node × Node)},
      (∀ kv ∈ pairs, kv.1 = Node.mk .scalar kv.1.value "" "" "" []) →
      applyKeptList p pairs = flattenEntries (applyKeptPairs p pairs)
  | [], _ => rfl
  | (kn, av) :: rest, h => by
    have hkn : kn = Node.mk .scalar kn.value "" "" "" [] := h (kn, av) (by simp)
    rw [applyKeptList_cons, applyKeptPairs_cons,
      applyKeptList_eq_flatten fun x hx => h x (by simp [hx])]
    cases h2 : mapFind (entryPairs p) kn.value with
    | none =>
      dsimp only
      rw [flattenEntries_append,
        show flattenEntries [(kn.value, av)] =
          [Node.mk .scalar kn.value "" "" "" [], av] from rfl, ← hkn]
    | some pv =>
      dsimp only
      by_cases hm : isDeleteMarker pv = true
      · rw [if_pos hm, if_pos hm]
        rfl
      · rw [if_neg hm, if_neg hm, flattenEntries_append,
          show flattenEntries [(kn.value, applyPatch av pv)] =
            [Node.mk .scalar kn.value "" "" "" [], applyPatch av pv] from rfl, ← hkn]

theorem patchAdditions_eq_flatten {a p : Node}
    (h : ∀ kv ∈ contentPairs p.content, kv.1 = Node.mk .scalar kv.1.value "" "" "" []) :
    patchAdditions a p = flattenEntries (additionsPairs a p) := by
  rw [patchAdditions, additionsPairs]
  generalize hl : contentPairs p.content = l at h
  clear hl
  induction l with
  | nil => rfl
  | cons kv rest ih =>
    obtain ⟨kn, av⟩ := kv
    have hkn : kn = Node.mk .scalar kn.value "" "" "" [] := h (kn, av) (by simp)
    rw [List.foldr_cons, List.foldr_cons]
    by_cases hc : ((entryKeys a).contains kn.value || isDeleteMarker av) = true
    · rw [if_pos hc, if_pos hc]
      exact ih fun x hx => h x (by simp [hx])
    · rw [if_neg hc, if_neg hc, flattenEntries_cons,
        ih fun x hx => h x (by simp [hx]), ← hkn]

theorem contentPairs_flattenEntries (ps : List (String × Node)) :
    contentPairs (flattenEntries ps) =
      ps.map fun kv => (Node.mk .scalar kv.1 "" "" "" [], kv.2) := by
  induction ps with
  | nil => rfl
  | cons kv rest ih =>
    obtain ⟨k, v⟩ := kv
    rw [flattenEntries_cons]
    rw [show contentPairs (Node.mk .scalar k "" "" "" [] :: v :: flattenEntries rest) =
      (Node.mk .scalar k "" "" "" [], v) :: contentPairs (flattenEntries rest) from rfl]
    rw [ih, List.map_cons]

theorem mshape_split {n : Node} (h : mshape n = true) :
    n.head = "" ∧ n.line = "" ∧ n.foot = "" ∧
    (match n.kind with
     | Kind.scalar => n.content.isEmpty
     | Kind.mapping =>
       n.value == "" && wfAlt n.content && nodupKeys (entryKeys n) && mshapeList n.content
     | _ => false) = true := by
  rw [mshape.eq_def] at h
  simp only [Bool.and_eq_true, beq_iff_eq] at h
  exact ⟨h.1.1.1, h.1.1.2, h.1.2, h.2⟩

theorem mshape_scalar_shape {n : Node} (h : mshape n = true) (hk : n.kind = .scalar) :
    n = Node.mk .scalar n.value "" "" "" [] := by
  obtain ⟨h1, h2, h3, h4⟩ := mshape_split h
  rw [hk] at h4
  cases n with
  | mk k v hh ll ff c =>
    simp only [Node.kind] at hk
    simp only [Node.head] at h1
    simp only [Node.line] at h2
    simp only [Node.foot] at h3
    simp only [Node.content, List.isEmpty_iff] at h4
    simp [Node.value, hk, h1, h2, h3, h4]

theorem mshape_mapping_split {n : Node} (h : mshape n = true) (hk : n.kind = .mapping) :
    n.value = "" ∧ wfAlt n.content = true ∧ nodupKeys (entryKeys n) = true ∧
      mshapeList n.content = true ∧ n.head = "" ∧ n.line = "" ∧ n.foot = "" := by
  obtain ⟨h1, h2, h3, h4⟩ := mshape_split h
  rw [hk] at h4
  simp only [Bool.and_eq_true, beq_iff_eq] at h4
  exact ⟨h4.1.1.1, h4.1.1.2, h4.1.2, h4.2, h1, h2, h3⟩

theorem mshapeList_mem : ∀ {l : List Node}, mshapeList l = true →
    ∀ {x : Node}, x ∈ l → mshape x = true
  | [], _, x, hx => by simp at hx
  | c :: rest, h, x, hx => by
    rw [show mshapeList (c :: rest) = (mshape c && mshapeList rest) from by
      rw [mshapeList]] at h
    have h2 := (Bool.and_eq_true _ _).mp h
    rcases List.mem_cons.mp hx with h3 | h3
    · rw [h3]; exact h2.1
    · exact mshapeList_mem h2.2 h3

theorem mshape_content_mem {n : Node} (h : mshape n = true) {x : Node}
    (hx : x ∈ n.content) : mshape x = true := by
  obtain ⟨h1, h2, h3, h4⟩ := mshape_split h
  cases hk : n.kind with
  | scalar =>
    rw [hk] at h4
    rw [List.isEmpty_iff.mp h4] at hx
    simp at hx
  | mapping =>
    rw [hk] at h4
    simp only [Bool.and_eq_true] at h4
    exact mshapeList_mem h4.2 hx
  | zero => rw [hk] at h4; cases h4
  | document => rw [hk] at h4; cases h4
  | sequence => rw [hk] at h4; cases h4
  | «alias» => rw [hk] at h4; cases h4

theorem entry_value_mem_content {n : Node} {k : String} {v : Node}
    (h : (k, v) ∈ entryPairs n) : v ∈ n.content := by
  rcases List.mem_map.mp h with ⟨⟨kn, vn⟩, hkv, heq⟩
  have hv : vn = v := congrArg Prod.snd heq
  rw [← hv]
  exact (mem_contentPairs hkv).2

theorem mshape_entry_value {n : Node} (h : mshape n = true) {k : String} {v : Node}
    (hm : (k, v) ∈ entryPairs n) : mshape v = true :=
  mshape_content_mem h (entry_value_mem_content hm)

theorem mshape_key_shape {n : Node} (h : mshape n = true) (hk : n.kind = .mapping) :
    ∀ kv ∈ contentPairs n.content, kv.1 = Node.mk .scalar kv.1.value "" "" "" [] := by
  intro kv hkv
  have hwf := (mshape_mapping_split h hk).2.1
  have hsc : kv.1.kind = Kind.scalar := wfAlt_keys_scalar hwf kv hkv
  have hmem : kv.1 ∈ n.content := by
    obtain ⟨x, y⟩ := kv
    exact (mem_contentPairs hkv).1
  exact mshape_scalar_shape (mshape_content_mem h hmem) hsc

theorem noPatchDeleteList_mem : ∀ {l : List Node}, noPatchDeleteList l = true →
    ∀ {x : Node}, x ∈ l → noPatchDelete x = true
  | [], _, x, hx => by simp at hx
  | c :: rest, h, x, hx => by
    rw [show noPatchDeleteList (c :: rest) = (noPatchDelete c && noPatchDeleteList rest)
      from by rw [noPatchDeleteList]] at h
    have h2 := (Bool.and_eq_true _ _).mp h
    rcases List.mem_cons.mp hx with h3 | h3
    · rw [h3]; exact h2.1
    · exact noPatchDeleteList_mem h2.2 h3

theorem np_split {n : Node} (h : noPatchDelete n = true) :
    (n.kind = .mapping →
      ∀ kv ∈ entryPairs n,
        ¬(kv.1 = "$patch" ∧ kv.2.kind = Kind.scalar ∧ kv.2.value = "delete")) ∧
    noPatchDeleteList n.content = true := by
  rw [noPatchDelete.eq_def] at h
  have h2 := (Bool.and_eq_true _ _).mp h
  refine ⟨?_, h2.2⟩
  intro hk kv hkv hbad
  have h3 := h2.1
  rw [if_pos hk, List.all_eq_true] at h3
  have h4 := h3 kv hkv
  simp only [Bool.not_eq_true', Bool.and_eq_false_iff] at h4
  rcases h4 with h5 | h5
  · rcases h5 with h5 | h5
    · exact absurd (beq_iff_eq.mpr hbad.1) (by simp [h5])
    · exact absurd (beq_iff_eq.mpr hbad.2.1) (by simp [h5])
  · exact absurd (beq_iff_eq.mpr hbad.2.2) (by simp [h5])

theorem np_content_mem {n : Node} (h : noPatchDelete n = true) {x : Node}
    (hx : x ∈ n.content) : noPatchDelete x = true :=
  noPatchDeleteList_mem (np_split h).2 hx

theorem np_entry_value {n : Node} (h : noPatchDelete n = true) {k : String} {v : Node}
    (hm : (k, v) ∈ entryPairs n) : noPatchDelete v = true :=
  np_content_mem h (entry_value_mem_content hm)

theorem nmr_elim {a b : Node} (h : noMapRemoval a b = true) (ha : a.kind = .mapping)
    (hb : b.kind = .mapping) {k : String} {v : Node} (hm : (k, v) ∈ entryPairs a) :
    (mapFind (entryPairs b) k = none → v.kind ≠ .mapping) ∧
    (∀ bv, mapFind (entryPairs b) k = some bv → noMapRemoval v bv = true) := by
  rw [noMapRemoval.eq_def, if_pos ⟨ha, hb⟩, List.all_eq_true] at h
  have h2 := h ⟨(k, v), hm⟩ (List.mem_attach _ _)
  dsimp only at h2
  constructor
  · intro hnone
    split at h2
    · simp only [Bool.not_eq_true', beq_eq_false_iff_ne, ne_eq] at h2
      exact h2
    · next bv heq =>
        rw [hnone] at heq
        cases heq
  · intro bv hbv
    split at h2
    · next heq =>
        rw [hbv] at heq
        cases heq
    · next bv2 heq =>
        rw [hbv] at heq
        injection heq with he
        rw [he]
        exact h2

theorem nodeEquivList_nil : nodeEquivList [] [] = true := by
  rw [nodeEquivList.eq_def]

theorem nodeEquiv_nonmapping_intro {x y : Node} (hnm : x.kind ≠ .mapping)
    (hk : x.kind = y.kind) (hv : x.value = y.value) (hh : x.head = y.head)
    (hl : x.line = y.line) (hf : x.foot = y.foot)
    (hcl : nodeEquivList x.content y.content = true) : nodeEquiv x y = true := by
  rw [nodeEquiv.eq_def]
  simp only [hk, hv, hh, hl, hf, beq_self_eq_true, Bool.true_and, if_neg (hk ▸ hnm)]
  exact hcl

theorem nodeEquiv_mapping_intro {x y : Node} (hkx : x.kind = .mapping)
    (hky : y.kind = .mapping) (hv : x.value = y.value) (hh : x.head = y.head)
    (hl : x.line = y.line) (hf : x.foot = y.foot)
    (h1 : ∀ kv ∈ entryPairs x,
      ∃ yv, mapFind (entryPairs y) kv.1 = some yv ∧ nodeEquiv kv.2 yv = true)
    (h2 : ∀ kv ∈ entryPairs y, (mapFind (entryPairs x) kv.1).isSome = true) :
    nodeEquiv x y = true := by
  rw [nodeEquiv.eq_def]
  simp only [hkx, hky, hv, hh, hl, hf, beq_self_eq_true, Bool.true_and, if_pos,
    Bool.and_eq_true, List.all_eq_true]
  constructor
  · intro kvh _
    obtain ⟨yv, hfind, hequiv⟩ := h1 kvh.1 kvh.2
    split
    · next bv heq =>
        rw [hfind] at heq
        injection heq with he
        rw [← he]
        exact hequiv
    · next heq =>
        rw [hfind] at heq
        cases heq
  · intro kv hkv
    exact h2 kv hkv

theorem nodeEquiv_refl_aux : ∀ (fuel : Nat) (n : Node), sizeOf n ≤ fuel →
    mshape n = true → nodeEquiv n n = true := by
  intro fuel
  induction fuel with
  | zero =>
    intro n h
    have := sizeOf_node_pos n
    omega
  | succ f ih =>
    intro n hle hm
    cases hk : n.kind with
    | mapping =>
      have hparts := mshape_mapping_split hm hk
      apply nodeEquiv_mapping_intro hk hk rfl rfl rfl rfl
      · intro kv hkv
        have hfind : mapFind (entryPairs n) kv.1 = some kv.2 := by
          obtain ⟨k, v⟩ := kv
          exact mapFind_of_mem_nodup (by rw [entryKeys_map_fst]; exact hparts.2.2.1) hkv
        refine ⟨kv.2, hfind, ?_⟩
        apply ih
        · have h1 : kv.2 ∈ n.content := by
            obtain ⟨k, v⟩ := kv
            exact entry_value_mem_content hkv
          have h2 : sizeOf kv.2 < sizeOf n.content := List.sizeOf_lt_of_mem h1
          have h3 := sizeOf_content_lt n
          omega
        · obtain ⟨k, v⟩ := kv
          exact mshape_entry_value hm hkv
      · intro kv hkv
        obtain ⟨k, v⟩ := kv
        rw [mapFind_of_mem_nodup (by rw [entryKeys_map_fst]; exact hparts.2.2.1) hkv]
        rfl
    | scalar =>
      have hshape := mshape_scalar_shape hm hk
      apply nodeEquiv_nonmapping_intro (by rw [hk]; simp) rfl rfl rfl rfl rfl
      rw [show n.content = [] from by rw [hshape]; rfl]
      exact nodeEquivList_nil
    | zero =>
      obtain ⟨_, _, _, h4⟩ := mshape_split hm
      rw [hk] at h4
      cases h4
    | document =>
      obtain ⟨_, _, _, h4⟩ := mshape_split hm
      rw [hk] at h4
      cases h4
    | sequence =>
      obtain ⟨_, _, _, h4⟩ := mshape_split hm
      rw [hk] at h4
      cases h4
    | «alias» =>
      obtain ⟨_, _, _, h4⟩ := mshape_split hm
      rw [hk] at h4
      cases h4

theorem nodeEquiv_refl {n : Node} (h : mshape n = true) : nodeEquiv n n = true :=
  nodeEquiv_refl_aux (sizeOf n) n (Nat.le_refl _) h

theorem compareNodes_some_cases {x y c : Node} (h : compareNodes x y = some c) :
    c = y ∨
    (x.kind = .mapping ∧ y.kind = .mapping ∧
      c = .mk .mapping "" "" "" "" (flattenEntries
        (firstPairs x y (contentPairs y.content) ++ secondPairs x y))) ∨
    (∃ items, c = .mk .sequence "" "" "" "" items) := by
  by_cases hk : x.kind = y.kind
  · cases hkx : x.kind with
    | mapping =>
      rw [compareNodes_mapping x y hkx (hk ▸ hkx)] at h
      split at h
      · cases h
      · injection h with h1
        exact Or.inr (Or.inl ⟨rfl, hk.symm.trans hkx, h1.symm⟩)
    | sequence =>
      rw [compareNodes_seq hkx (hk ▸ hkx)] at h
      simp only [compareSequenceNodes] at h
      split at h
      · cases h
      · injection h with h1
        exact Or.inr (Or.inr ⟨_, h1.symm⟩)
    | scalar =>
      rw [compareNodes_scalar hkx (hk ▸ hkx)] at h
      split at h
      · injection h with h1
        exact Or.inl h1.symm
      · cases h
    | zero =>
      rw [compareNodes_other hk (Or.inl hkx)] at h
      cases h
    | document =>
      rw [compareNodes_other hk (Or.inr (Or.inl hkx))] at h
      cases h
    | «alias» =>
      rw [compareNodes_other hk (Or.inr (Or.inr hkx))] at h
      cases h
  · rw [compareNodes_kind_ne hk] at h
    injection h with h1
    exact Or.inl h1.symm

theorem isDeleteMarker_createDeleteNode : isDeleteMarker createDeleteNode = true := by
  decide

theorem isDeleteMarker_spec {n : Node} (h : isDeleteMarker n = true) :
    n.kind = .mapping ∧
    ∃ w : Node, entryPairs n = [("$patch", w)] ∧ w.kind = .scalar ∧ w.value = "delete" := by
  rw [isDeleteMarker.eq_def] at h
  split at h
  · rename_i val hh ll ff pk kh kl kf kc pv vh vl vf vc
    simp only [Bool.and_eq_true, beq_iff_eq] at h
    refine ⟨rfl, Node.mk .scalar pv vh vl vf vc, ?_, rfl, ?_⟩
    · rw [entryPairs]
      rw [show (Node.mk Kind.mapping val hh ll ff
        [Node.mk Kind.scalar pk kh kl kf kc, Node.mk Kind.scalar pv vh vl vf vc]).content =
        [Node.mk Kind.scalar pk kh kl kf kc, Node.mk Kind.scalar pv vh vl vf vc] from rfl]
      rw [show contentPairs [Node.mk Kind.scalar pk kh kl kf kc,
        Node.mk Kind.scalar pv vh vl vf vc] =
        [(Node.mk Kind.scalar pk kh kl kf kc, Node.mk Kind.scalar pv vh vl vf vc)] from rfl]
      simp [Node.value, h.1]
    · rw [show (Node.mk Kind.scalar pv vh vl vf vc).value = pv from rfl]
      exact h.2
  · cases h

theorem nestedDeleteNode_kind (ov : Node) : (nestedDeleteNode ov).kind = .mapping := rfl

theorem createDeleteNode_kind : createDeleteNode.kind = .mapping := rfl

theorem compare_not_marker {a b d : Node} (hmb : mshape b = true)
    (hnp : noPatchDelete b = true) (hd : compareNodes a b = some d) :
    isDeleteMarker d = false := by
  cases hm : isDeleteMarker d with
  | false => rfl
  | true =>
    exfalso
    obtain ⟨hdk, w, hentry, hwk, hwv⟩ := isDeleteMarker_spec hm
    have hmarker_of_b : ∀ {v : Node}, ("$patch", v) ∈ entryPairs b →
        v.kind = Kind.scalar → v.value = "delete" → False := by
      intro v hv hk1 hv1
      exact (np_split hnp).1 (by
        rcases compareNodes_some_cases hd with h1 | ⟨hma2, hmb2, h1⟩ | ⟨items, h1⟩
        · rw [← h1]; exact hdk
        · exact hmb2
        · rw [h1] at hdk; cases hdk) ("$patch", v) hv ⟨rfl, hk1, hv1⟩
    rcases compareNodes_some_cases hd with h1 | ⟨hma2, hmb2, h1⟩ | ⟨items, h1⟩
    · -- d = b: b itself is marker-shaped, so b owns a $patch: delete entry
      rw [h1] at hentry
      exact hmarker_of_b (by rw [hentry]; simp) hwk hwv
    · -- d is the assembled mapping diff: its single entry is ("$patch", w)
      have hpairs : firstPairs a b (contentPairs b.content) ++ secondPairs a b =
          [("$patch", w)] := by
        rw [h1] at hentry
        rw [entryPairs_flatten] at hentry
        exact hentry
      have hwmem : ("$patch", w) ∈
          firstPairs a b (contentPairs b.content) ++ secondPairs a b := by
        rw [hpairs]
        simp
      have hbparts := mshape_mapping_split hmb hmb2
      rcases List.mem_append.mp hwmem with h2 | h2
      · rcases mem_firstPairs h2 with ⟨ov, mv, hov, hmv, hcmp⟩ | ⟨hov, hmv⟩
        · -- w is a recursive diff output of scalar kind, hence w = mv ∈ b
          have hw2 : w = mv := by
            rcases compareNodes_some_cases hcmp with h3 | ⟨_, _, h3⟩ | ⟨its, h3⟩
            · exact h3
            · rw [h3] at hwk; cases hwk
            · rw [h3] at hwk; cases hwk
          rw [nodeMap_find_eq hbparts.2.1 hbparts.2.2.1] at hmv
          exact hmarker_of_b (hw2 ▸ mapFind_mem hmv) hwk hwv
        · rw [nodeMap_find_eq hbparts.2.1 hbparts.2.2.1] at hmv
          exact hmarker_of_b (mapFind_mem hmv) hwk hwv
      · rcases mem_secondPairs h2 with ⟨ov, hov, hw | hw⟩
        · rw [hw, nestedDeleteNode_kind] at hwk
          cases hwk
        · rw [hw, createDeleteNode_kind] at hwk
          cases hwk
    · rw [h1] at hdk
      cases hdk

theorem bool_eq_false_of_not {b : Bool} (h : ¬b = true) : b = false := by
  cases b
  · rfl
  · exact absurd rfl h

theorem bool_false_of_not_true {b : Bool} (h : (!b) = true) : b = false := by
  cases b
  · rfl
  · simp at h

theorem mapFind_isSome_iff {l : List (String × Node)} {k : String} :
    (mapFind l k).isSome = true ↔ k ∈ l.map Prod.fst := by
  cases h : mapFind l k with
  | none =>
    simp only [Option.isSome_none]
    constructor
    · intro hc; cases hc
    · intro hmem
      exact absurd (mapFind_eq_none_iff.mp h) (by simp [hmem])
  | some v =>
    simp only [Option.isSome_some]
    constructor
    · intro _
      have := mapFind_mem h
      exact List.mem_map.mpr ⟨(k, v), this, rfl⟩
    · intro _
      trivial

theorem firstPairs_find_gen (a b : Node) (k : String) :
    ∀ pairs : List (Node × Node), nodupKeys (pairs.map fun kv => kv.1.value) = true →
      mapFind (firstPairs a b pairs) k =
        (if (pairs.map fun kv => kv.1.value).contains k then
          match mapFind (nodeMap a) k, mapFind (nodeMap b) k with
          | some ov, some mv => compareNodes ov mv
          | none, some mv => some mv
          | _, _ => none
         else none) := by
  intro pairs
  induction pairs with
  | nil =>
    intro _
    rw [show firstPairs a b [] = [] from rfl]
    simp [mapFind]
  | cons kv rest ih =>
    obtain ⟨kN, vN⟩ := kv
    intro hnd
    rw [List.map_cons, nodupKeys_cons] at hnd
    have hnd1 := (Bool.and_eq_true _ _).mp hnd
    have hcf : ((rest.map fun kv => kv.1.value).contains kN.value) = false :=
      bool_false_of_not_true hnd1.1
    rw [firstPairs, mapFind_append]
    by_cases hk1 : kN.value = k
    · subst hk1
      have hcon : ((((kN, vN) :: rest).map fun kv => kv.1.value).contains kN.value) = true := by
        simp
      rw [hcon, if_pos rfl]
      have hrestnone : mapFind (firstPairs a b rest) kN.value = none := by
        apply firstPairs_keys
        intro kv2 hkv2 heq
        exact contains_false_not_mem hcf (List.mem_map.mpr ⟨kv2, hkv2, heq⟩)
      cases h2 : mapFind (nodeMap a) kN.value with
      | none =>
        cases h3 : mapFind (nodeMap b) kN.value with
        | none => simp [mapFind, hrestnone]
        | some mv => simp [mapFind]
      | some ov =>
        cases h3 : mapFind (nodeMap b) kN.value with
        | none => simp [mapFind, hrestnone]
        | some mv =>
          cases h4 : compareNodes ov mv with
          | none => simp [h4, mapFind, hrestnone]
          | some ch => simp [h4, mapFind]
    · have hbne : (k == kN.value) = false :=
        beq_eq_false_iff_ne.mpr fun he => hk1 he.symm
      have hcon : ((((kN, vN) :: rest).map fun kv => kv.1.value).contains k) =
          ((rest.map fun kv => kv.1.value).contains k) := by
        rw [List.map_cons]
        rw [show (((kN, vN).1.value :: rest.map fun kv => kv.1.value).contains k) =
          (k == (kN, vN).1.value || (rest.map fun kv => kv.1.value).contains k) from rfl]
        rw [show ((kN, vN).1.value : String) = kN.value from rfl, hbne, Bool.false_or]
      rw [hcon, ← ih hnd1.2]
      cases h2 : mapFind (nodeMap a) kN.value with
      | none =>
        cases h3 : mapFind (nodeMap b) kN.value with
        | none => simp [mapFind]
        | some mv => simp [mapFind, hk1]
      | some ov =>
        cases h3 : mapFind (nodeMap b) kN.value with
        | none => simp [mapFind]
        | some mv =>
          cases h4 : compareNodes ov mv with
          | none => simp [h4, mapFind]
          | some ch => simp [h4, mapFind, hk1]

theorem secondPairs_find_none {a b : Node} {k : String}
    (h : (∀ kv ∈ contentPairs a.content, kv.1.value ≠ k) ∨
      (processedKeys a b).contains k = true) :
    mapFind (secondPairs a b) k = none := by
  rw [secondPairs]
  generalize hl : contentPairs a.content = l at h
  clear hl
  induction l with
  | nil => rfl
  | cons kv rest ih =>
    have hrec : (∀ kv2 ∈ rest, kv2.1.value ≠ k) ∨ (processedKeys a b).contains k = true := by
      rcases h with h | h
      · exact Or.inl fun x hx => h x (by simp [hx])
      · exact Or.inr h
    rw [List.foldr_cons]
    by_cases hp : ((processedKeys a b).contains kv.1.value = true)
    · rw [if_pos hp]
      exact ih hrec
    · rw [if_neg hp]
      cases h2 : mapFind (nodeMap a) kv.1.value with
      | none => exact ih hrec
      | some ov =>
        have hne : kv.1.value ≠ k := by
          rcases h with h | h
          · exact h kv (by simp)
          · intro he
            rw [he] at hp
            exact hp h
        simp only [mapFind, if_neg hne]
        exact ih hrec

theorem mem_processedKeys_intro {a b : Node} {k : String} (hb : k ∈ entryKeys b)
    (hs : (mapFind (nodeMap a) k).isSome = true) : k ∈ processedKeys a b := by
  rw [entryKeys_eq] at hb
  rcases List.mem_map.mp hb with ⟨kv, hkv, heq⟩
  rw [processedKeys]
  apply List.mem_filterMap.mpr
  refine ⟨kv, hkv, ?_⟩
  rw [heq, if_pos hs]

theorem mem_applyKeptPairs {p : Node} : ∀ {pairs : List (Node × Node)} {k : String}
    {rv : Node}, (k, rv) ∈ applyKeptPairs p pairs →
    ∃ kn av, (kn, av) ∈ pairs ∧ kn.value = k ∧
      ((mapFind (entryPairs p) k = none ∧ rv = av) ∨
       (∃ pv, mapFind (entryPairs p) k = some pv ∧ isDeleteMarker pv = false ∧
         rv = applyPatch av pv))
  | [], k, rv, h => by simp [applyKeptPairs] at h
  | (kn, av) :: rest, k, rv, h => by
    rw [applyKeptPairs_cons] at h
    rcases List.mem_append.mp h with h1 | h1
    · cases h2 : mapFind (entryPairs p) kn.value with
      | none =>
        rw [h2] at h1
        dsimp only at h1
        rcases List.mem_singleton.mp h1 with h3
        injection h3 with hk3 hv3
        subst hk3
        exact ⟨kn, av, by simp, rfl, Or.inl ⟨h2, hv3⟩⟩
      | some pv =>
        rw [h2] at h1
        dsimp only at h1
        by_cases hdm : isDeleteMarker pv = true
        · rw [if_pos hdm] at h1
          simp at h1
        · rw [if_neg hdm] at h1
          rcases List.mem_singleton.mp h1 with h3
          injection h3 with hk3 hv3
          subst hk3
          exact ⟨kn, av, by simp, rfl,
            Or.inr ⟨pv, h2, bool_eq_false_of_not hdm, hv3⟩⟩
    · obtain ⟨kn2, av2, hmem, hkk, hor⟩ := mem_applyKeptPairs h1
      exact ⟨kn2, av2, by simp [hmem], hkk, hor⟩

theorem mem_applyKeptPairs_intro {p : Node} : ∀ {pairs : List (Node × Node)}
    {kn av : Node}, (kn, av) ∈ pairs →
    (∀ pv, mapFind (entryPairs p) kn.value = some pv → isDeleteMarker pv = false) →
    ∃ rv, (kn.value, rv) ∈ applyKeptPairs p pairs
  | [], kn, av, h, _ => by simp at h
  | (kn2, av2) :: rest, kn, av, h, hnm => by
    rcases List.mem_cons.mp h with h1 | h1
    · injection h1 with hk1 hv1
      subst hk1
      rw [applyKeptPairs_cons]
      cases h2 : mapFind (entryPairs p) kn.value with
      | none =>
        dsimp only
        exact ⟨av2, by simp⟩
      | some pv =>
        dsimp only
        rw [if_neg (by rw [hnm pv h2]; simp)]
        exact ⟨applyPatch av2 pv, by simp⟩
    · obtain ⟨rv, hrv⟩ := mem_applyKeptPairs_intro h1 hnm
      rw [applyKeptPairs_cons]
      exact ⟨rv, List.mem_append.mpr (Or.inr hrv)⟩

theorem mem_additionsPairs {a p : Node} {k : String} {rv : Node}
    (h : (k, rv) ∈ additionsPairs a p) :
    ∃ kv ∈ contentPairs p.content, kv.1.value = k ∧ kv.2 = rv ∧
      (entryKeys a).contains k = false ∧ isDeleteMarker rv = false := by
  rw [additionsPairs] at h
  generalize hl : contentPairs p.content = l at h ⊢
  clear hl
  induction l with
  | nil => simp at h
  | cons kv rest ih =>
    rw [List.foldr_cons] at h
    by_cases hc : ((entryKeys a).contains kv.1.value || isDeleteMarker kv.2) = true
    · rw [if_pos hc] at h
      obtain ⟨kv2, hm2, hrest⟩ := ih h
      exact ⟨kv2, by simp [hm2], hrest⟩
    · rw [if_neg hc] at h
      rcases List.mem_cons.mp h with h1 | h1
      · injection h1 with hk1 hv1
        subst hk1
        subst hv1
        simp only [Bool.or_eq_true, not_or] at hc
        exact ⟨kv, by simp, rfl, rfl,
          bool_eq_false_of_not hc.1, bool_eq_false_of_not hc.2⟩
      · obtain ⟨kv2, hm2, hrest⟩ := ih h1
        exact ⟨kv2, by simp [hm2], hrest⟩

theorem mem_additionsPairs_intro {a p : Node} {kv : Node × Node}
    (hkv : kv ∈ contentPairs p.content)
    (hna : (entryKeys a).contains kv.1.value = false)
    (hnm : isDeleteMarker kv.2 = false) :
    (kv.1.value, kv.2) ∈ additionsPairs a p := by
  rw [additionsPairs]
  generalize hl : contentPairs p.content = l at hkv
  clear hl
  induction l with
  | nil => simp at hkv
  | cons kv2 rest ih =>
    rw [List.foldr_cons]
    rcases List.mem_cons.mp hkv with h1 | h1
    · subst h1
      rw [if_neg (by rw [hna, hnm]; simp)]
      simp
    · by_cases hc : ((entryKeys a).contains kv2.1.value || isDeleteMarker kv2.2) = true
      · rw [if_pos hc]
        exact ih h1
      · rw [if_neg hc]
        exact List.mem_cons.mpr (Or.inr (ih h1))

theorem roundTrip_none {a b : Node} (h : compareNodes a b = none) : roundTrip a b = a := by
  rw [roundTrip, h]

theorem roundTrip_some {a b d : Node} (h : compareNodes a b = some d) :
    roundTrip a b = applyPatch a d := by
  rw [roundTrip, h]

theorem entry_lookup_of_mem {n : Node} (hnd : nodupKeys (entryKeys n) = true) {k : String}
    {v : Node} (h : (k, v) ∈ entryPairs n) : mapFind (entryPairs n) k = some v :=
  mapFind_of_mem_nodup (by rw [entryKeys_map_fst]; exact hnd) h

theorem not_contains_of_find_none {n : Node} {k : String}
    (h : mapFind (entryPairs n) k = none) : (entryKeys n).contains k = false := by
  cases hc : (entryKeys n).contains k with
  | false => rfl
  | true =>
    exfalso
    have hmem := List.mem_of_elem_eq_true hc
    rw [← entryKeys_map_fst] at hmem
    exact (mapFind_eq_none_iff.mp h) hmem

theorem contains_entryKeys_of_find {n : Node} {k : String} {v : Node}
    (h : mapFind (entryPairs n) k = some v) : (entryKeys n).contains k = true := by
  apply mem_contains
  rw [← entryKeys_map_fst]
  exact List.mem_map.mpr ⟨(k, v), mapFind_mem h, rfl⟩

theorem find_none_of_not_contains {n : Node} {k : String}
    (h : (entryKeys n).contains k = false) : mapFind (entryPairs n) k = none := by
  cases hf : mapFind (entryPairs n) k with
  | none => rfl
  | some v =>
    rw [contains_entryKeys_of_find hf] at h
    cases h

theorem mapFind_append_some {l1 l2 : List (String × Node)} {k : String} {v : Node}
    (h : mapFind l1 k = some v) : mapFind (l1 ++ l2) k = some v := by
  rw [mapFind_append, h]

theorem mapFind_append_none {l1 l2 : List (String × Node)} {k : String}
    (h : mapFind l1 k = none) : mapFind (l1 ++ l2) k = mapFind l2 k := by
  rw [mapFind_append, h]

theorem roundTrip_mapping_case {a b : Node}
    (ih : ∀ av bv : Node, sizeOf av + sizeOf bv < sizeOf a + sizeOf b →
      mshape av = true → mshape bv = true → noMapRemoval av bv = true →
      noPatchDelete bv = true → nodeEquiv (roundTrip av bv) bv = true)
    (hka : a.kind = .mapping) (hkb : b.kind = .mapping)
    (hma : mshape a = true) (hmb : mshape b = true)
    (hnmr : noMapRemoval a b = true) (hnp : noPatchDelete b = true) :
    nodeEquiv (roundTrip a b) b = true := by
  have hpa := mshape_mapping_split hma hka
  have hpb := mshape_mapping_split hmb hkb
  have hnda := hpa.2.2.1
  have hndb := hpb.2.2.1
  have hfa : ∀ k, mapFind (nodeMap a) k = mapFind (entryPairs a) k :=
    fun k => nodeMap_find_eq hpa.2.1 hnda k
  have hfb : ∀ k, mapFind (nodeMap b) k = mapFind (entryPairs b) k :=
    fun k => nodeMap_find_eq hpb.2.1 hndb k
  have hndb2 : nodupKeys ((contentPairs b.content).map fun kv => kv.1.value) = true := by
    rw [← entryKeys_eq]
    exact hndb
  have hfirst : ∀ k, mapFind (firstPairs a b (contentPairs b.content)) k =
      (if (entryKeys b).contains k then
        match mapFind (entryPairs a) k, mapFind (entryPairs b) k with
        | some ov, some mv => compareNodes ov mv
        | none, some mv => some mv
        | _, _ => none
       else none) := by
    intro k
    rw [firstPairs_find_gen a b k _ hndb2, hfa, hfb, ← entryKeys_eq]
  have hIHe : ∀ (k : String) (av bv : Node), (k, av) ∈ entryPairs a →
      (k, bv) ∈ entryPairs b → nodeEquiv (roundTrip av bv) bv = true := by
    intro k av bv hmae hmbe
    apply ih
    · have s1 := mem_entryPairs_sizeOf_lt hmae
      have s2 := mem_entryPairs_sizeOf_lt hmbe
      omega
    · exact mshape_entry_value hma hmae
    · exact mshape_entry_value hmb hmbe
    · exact (nmr_elim hnmr hka hkb hmae).2 bv (entry_lookup_of_mem hndb hmbe)
    · exact np_entry_value hnp hmbe
  have hSnone_of_b : ∀ (k : String) (bv : Node), mapFind (entryPairs b) k = some bv →
      (mapFind (entryPairs a) k).isSome = true → mapFind (secondPairs a b) k = none := by
    intro k bv hlb hsa
    apply secondPairs_find_none
    right
    apply mem_contains
    apply mem_processedKeys_intro
    · exact List.mem_of_elem_eq_true (contains_entryKeys_of_find hlb)
    · rw [hfa]
      exact hsa
  have hSsome : ∀ (k : String) (av : Node), (k, av) ∈ entryPairs a →
      mapFind (entryPairs b) k = none →
      mapFind (secondPairs a b) k =
        some (if av.kind = .mapping then nestedDeleteNode av else createDeleteNode) := by
    intro k av hmae hlb
    apply secondPairs_find
    · cases hc : (processedKeys a b).contains k with
      | false => rfl
      | true =>
        exfalso
        have hk2 := processedKeys_subset (List.mem_of_elem_eq_true hc)
        have hs : (mapFind (entryPairs b) k).isSome = true := by
          rw [mapFind_isSome_iff, entryKeys_map_fst]
          exact hk2
        rw [hlb] at hs
        cases hs
    · rw [hfa]
      exact entry_lookup_of_mem hnda hmae
    · rcases List.mem_map.mp hmae with ⟨kv, hkv, heq⟩
      exact ⟨kv, hkv, congrArg Prod.fst heq⟩
  by_cases hemp :
      ((firstPairs a b (contentPairs b.content) ++ secondPairs a b).isEmpty = true)
  · -- empty diff: the two mappings already correspond entry by entry
    have hc : compareNodes a b = none := by
      rw [compareNodes_mapping a b hka hkb, if_pos hemp]
    rw [roundTrip_none hc]
    have hFS := List.append_eq_nil.mp (List.isEmpty_iff.mp hemp)
    apply nodeEquiv_mapping_intro hka hkb (hpa.1.trans hpb.1.symm)
      (hpa.2.2.2.2.1.trans hpb.2.2.2.2.1.symm)
      (hpa.2.2.2.2.2.1.trans hpb.2.2.2.2.2.1.symm)
      (hpa.2.2.2.2.2.2.trans hpb.2.2.2.2.2.2.symm)
    · intro kv hkv
      obtain ⟨k0, v0⟩ := kv
      cases hlb : mapFind (entryPairs b) k0 with
      | none =>
        exfalso
        have hs := hSsome k0 v0 hkv hlb
        rw [hFS.2] at hs
        cases hs
      | some bv =>
        refine ⟨bv, rfl, ?_⟩
        have hF0 : mapFind (firstPairs a b (contentPairs b.content)) k0 = none := by
          rw [hFS.1]
          rfl
        rw [hfirst, if_pos (contains_entryKeys_of_find hlb),
          entry_lookup_of_mem hnda hkv, hlb] at hF0
        have hihr := hIHe k0 v0 bv hkv (mapFind_mem hlb)
        rw [roundTrip_none hF0] at hihr
        exact hihr
    · intro kv hkv
      obtain ⟨k0, bv⟩ := kv
      cases hla : mapFind (entryPairs a) k0 with
      | some av => rfl
      | none =>
        exfalso
        have hF0 : mapFind (firstPairs a b (contentPairs b.content)) k0 = none := by
          rw [hFS.1]
          rfl
        rw [hfirst, if_pos (contains_entryKeys_of_find (entry_lookup_of_mem hndb hkv)),
          hla, entry_lookup_of_mem hndb hkv] at hF0
        cases hF0
  · -- non-empty diff: apply the assembled patch mapping and match entries
    have hc : compareNodes a b = some (Node.mk .mapping "" "" "" ""
        (flattenEntries (firstPairs a b (contentPairs b.content) ++ secondPairs a b))) := by
      rw [compareNodes_mapping a b hka hkb, if_neg hemp]
    rw [roundTrip_some hc,
      applyPatch_mapping hka (show (Node.mk Kind.mapping "" "" "" "" (flattenEntries
        (firstPairs a b (contentPairs b.content) ++ secondPairs a b))).kind = Kind.mapping
        from rfl)]
    have hdpairs : entryPairs (Node.mk Kind.mapping "" "" "" "" (flattenEntries
        (firstPairs a b (contentPairs b.content) ++ secondPairs a b))) =
        firstPairs a b (contentPairs b.content) ++ secondPairs a b :=
      entryPairs_flatten _ _ _ _ _
    have hdkeys : ∀ kv ∈ contentPairs (Node.mk Kind.mapping "" "" "" "" (flattenEntries
        (firstPairs a b (contentPairs b.content) ++ secondPairs a b))).content,
        kv.1 = Node.mk .scalar kv.1.value "" "" "" [] := by
      intro kv hkv
      rw [show (Node.mk Kind.mapping "" "" "" "" (flattenEntries
        (firstPairs a b (contentPairs b.content) ++ secondPairs a b))).content =
        flattenEntries (firstPairs a b (contentPairs b.content) ++ secondPairs a b)
        from rfl, contentPairs_flattenEntries] at hkv
      rcases List.mem_map.mp hkv with ⟨x, _, hx⟩
      rw [← hx]
      rfl
    rw [applyKeptList_eq_flatten (mshape_key_shape hma hka),
      patchAdditions_eq_flatten hdkeys, ← flattenEntries_append]
    refine nodeEquiv_mapping_intro rfl hkb ?_ ?_ ?_ ?_ ?_ ?_
    · show a.value = b.value
      rw [hpa.1, hpb.1]
    · show a.head = b.head
      rw [hpa.2.2.2.2.1, hpb.2.2.2.2.1]
    · show a.line = b.line
      rw [hpa.2.2.2.2.2.1, hpb.2.2.2.2.2.1]
    · show a.foot = b.foot
      rw [hpa.2.2.2.2.2.2, hpb.2.2.2.2.2.2]
    · intro kv hkv
      obtain ⟨k0, rv⟩ := kv
      rw [entryPairs_flatten] at hkv
      rcases List.mem_append.mp hkv with hkept | hadd
      · obtain ⟨kn, av, hmemp, hknv, hcase⟩ := mem_applyKeptPairs hkept
        have hmLa : (k0, av) ∈ entryPairs a := by
          rw [← hknv]
          exact List.mem_map.mpr ⟨(kn, av), hmemp, rfl⟩
        have hLa : mapFind (entryPairs a) k0 = some av := entry_lookup_of_mem hnda hmLa
        rcases hcase with ⟨hdnone, hrv⟩ | ⟨pv, hdsome, hnm, hrv⟩
        · rw [hdpairs] at hdnone
          cases hF : mapFind (firstPairs a b (contentPairs b.content)) k0 with
          | some w =>
            rw [mapFind_append_some hF] at hdnone
            cases hdnone
          | none =>
            rw [mapFind_append_none hF] at hdnone
            cases hlb : mapFind (entryPairs b) k0 with
            | none =>
              exfalso
              rw [hSsome k0 av hmLa hlb] at hdnone
              cases hdnone
            | some bv =>
              refine ⟨bv, rfl, ?_⟩
              rw [hfirst, if_pos (contains_entryKeys_of_find hlb), hLa, hlb] at hF
              have hihr := hIHe k0 av bv hmLa (mapFind_mem hlb)
              rw [roundTrip_none hF] at hihr
              rw [hrv]
              exact hihr
        · rw [hdpairs] at hdsome
          cases hF : mapFind (firstPairs a b (contentPairs b.content)) k0 with
          | some w =>
            rw [mapFind_append_some hF] at hdsome
            injection hdsome with hw
            cases hlb : mapFind (entryPairs b) k0 with
            | none =>
              exfalso
              rw [hfirst, if_neg (by rw [not_contains_of_find_none hlb]; simp), ] at hF
              cases hF
            | some bv =>
              refine ⟨bv, rfl, ?_⟩
              rw [hfirst, if_pos (contains_entryKeys_of_find hlb), hLa, hlb] at hF
              have hihr := hIHe k0 av bv hmLa (mapFind_mem hlb)
              rw [roundTrip_some hF] at hihr
              rw [hrv, ← hw]
              exact hihr
          | none =>
            exfalso
            rw [mapFind_append_none hF] at hdsome
            cases hlb : mapFind (entryPairs b) k0 with
            | some bv =>
              rw [hSnone_of_b k0 bv hlb (by rw [hLa]; rfl)] at hdsome
              cases hdsome
            | none =>
              rw [hSsome k0 av hmLa hlb] at hdsome
              injection hdsome with hpv
              have hremoved := (nmr_elim hnmr hka hkb hmLa).1 hlb
              rw [if_neg hremoved] at hpv
              rw [← hpv, isDeleteMarker_createDeleteNode] at hnm
              cases hnm
      · obtain ⟨kvd, hkvdmem, hkval, hkv2, hnotina, hnm⟩ := mem_additionsPairs hadd
        have hmemd : (k0, rv) ∈
            firstPairs a b (contentPairs b.content) ++ secondPairs a b := by
          rw [← hdpairs]
          exact List.mem_map.mpr ⟨kvd, hkvdmem, by rw [hkval, hkv2]⟩
        rcases List.mem_append.mp hmemd with hF | hS
        · rcases mem_firstPairs hF with ⟨ov, mv, hov, hmv, hcmp⟩ | ⟨hov, hmv⟩
          · exfalso
            rw [hfa] at hov
            rw [contains_entryKeys_of_find hov] at hnotina
            cases hnotina
          · rw [hfb] at hmv
            exact ⟨rv, hmv, nodeEquiv_refl (mshape_entry_value hmb (mapFind_mem hmv))⟩
        · exfalso
          obtain ⟨ov, hov, _⟩ := mem_secondPairs hS
          rw [hfa] at hov
          rw [contains_entryKeys_of_find hov] at hnotina
          cases hnotina
    · intro kv hkv
      obtain ⟨k0, bv⟩ := kv
      rw [entryPairs_flatten, mapFind_isSome_iff]
      have hLb : mapFind (entryPairs b) k0 = some bv := entry_lookup_of_mem hndb hkv
      cases hla : mapFind (entryPairs a) k0 with
      | some av =>
        rcases List.mem_map.mp (mapFind_mem hla) with ⟨kvp, hkvp, heq⟩
        obtain ⟨knp, avp⟩ := kvp
        have hkeq : knp.value = k0 := congrArg Prod.fst heq
        have hcond : ∀ pv, mapFind (entryPairs (Node.mk Kind.mapping "" "" "" ""
            (flattenEntries (firstPairs a b (contentPairs b.content) ++
              secondPairs a b)))) knp.value = some pv → isDeleteMarker pv = false := by
          intro pv hdlookup
          rw [hdpairs, hkeq] at hdlookup
          cases hF : mapFind (firstPairs a b (contentPairs b.content)) k0 with
          | some w =>
            rw [mapFind_append_some hF] at hdlookup
            injection hdlookup with hw
            rw [hfirst, if_pos (contains_entryKeys_of_find hLb), hla, hLb] at hF
            rw [← hw]
            exact compare_not_marker (mshape_entry_value hmb hkv)
              (np_entry_value hnp hkv) hF
          | none =>
            exfalso
            rw [mapFind_append_none hF,
              hSnone_of_b k0 bv hLb (by rw [hla]; rfl)] at hdlookup
            cases hdlookup
        obtain ⟨rv, hrv⟩ := mem_applyKeptPairs_intro hkvp hcond
        apply List.mem_map.mpr
        refine ⟨(knp.value, rv), List.mem_append.mpr (Or.inl hrv), hkeq⟩
      | none =>
        have hFsome : mapFind (firstPairs a b (contentPairs b.content)) k0 = some bv := by
          rw [hfirst, if_pos (contains_entryKeys_of_find hLb), hla, hLb]
        have hdmem : (k0, bv) ∈ entryPairs (Node.mk Kind.mapping "" "" "" ""
            (flattenEntries (firstPairs a b (contentPairs b.content) ++
              secondPairs a b))) := by
          rw [hdpairs]
          exact List.mem_append.mpr (Or.inl (mapFind_mem hFsome))
        rcases List.mem_map.mp hdmem with ⟨kvd, hkvdmem, heqd⟩
        have hnina : (entryKeys a).contains kvd.1.value = false := by
          rw [show kvd.1.value = k0 from congrArg Prod.fst heqd]
          exact not_contains_of_find_none hla
        have hnm : isDeleteMarker kvd.2 = false := by
          rw [show kvd.2 = bv from congrArg Prod.snd heqd]
          cases hmk : isDeleteMarker bv with
          | false => rfl
          | true =>
            exfalso
            obtain ⟨hbk, w, hent, hwk, hwv⟩ := isDeleteMarker_spec hmk
            have hnpc := np_entry_value hnp hkv
            exact (np_split hnpc).1 hbk ("$patch", w) (by rw [hent]; simp) ⟨rfl, hwk, hwv⟩
        apply List.mem_map.mpr
        refine ⟨(kvd.1.value, kvd.2),
          List.mem_append.mpr (Or.inr (mem_additionsPairs_intro hkvdmem hnina hnm)), ?_⟩
        exact congrArg Prod.fst heqd

theorem roundTrip_aux : ∀ (fuel : Nat) (a b : Node), sizeOf a + sizeOf b ≤ fuel →
    mshape a = true → mshape b = true → noMapRemoval a b = true →
    noPatchDelete b = true → nodeEquiv (roundTrip a b) b = true := by
  intro fuel
  induction fuel with
  | zero =>
    intro a b hsz _ _ _ _
    have h1 := sizeOf_node_pos a
    have h2 := sizeOf_node_pos b
    omega
  | succ n ihf =>
    intro a b hsz hma hmb hnmr hnp
    by_cases hk : a.kind = b.kind
    · cases hka : a.kind with
      | mapping =>
        exact roundTrip_mapping_case
          (fun av bv hlt hma2 hmb2 hnmr2 hnp2 =>
            ihf av bv (by omega) hma2 hmb2 hnmr2 hnp2)
          hka (hk.symm.trans hka) hma hmb hnmr hnp
      | scalar =>
        have hkb : b.kind = .scalar := hk.symm.trans hka
        by_cases hv : a.value = b.value
        · have hc : compareNodes a b = none := by
            rw [compareNodes_scalar hka hkb, if_neg (by simp [hv])]
          rw [roundTrip_none hc]
          refine nodeEquiv_nonmapping_intro (by rw [hka]; intro hx; cases hx) hk hv
            ((mshape_split hma).1.trans (mshape_split hmb).1.symm)
            ((mshape_split hma).2.1.trans (mshape_split hmb).2.1.symm)
            ((mshape_split hma).2.2.1.trans (mshape_split hmb).2.2.1.symm) ?_
          have hca : a.content = [] := by
            have h4 := (mshape_split hma).2.2.2
            rw [hka] at h4
            exact List.isEmpty_iff.mp h4
          have hcb : b.content = [] := by
            have h4 := (mshape_split hmb).2.2.2
            rw [hkb] at h4
            exact List.isEmpty_iff.mp h4
          rw [hca, hcb]
          exact nodeEquivList_nil
        · have hc : compareNodes a b = some b := by
            rw [compareNodes_scalar hka hkb, if_pos (by simp [hv])]
          rw [roundTrip_some hc,
            applyPatch_not_mapping (by intro hx; rw [hka] at hx; cases hx.1)]
          exact nodeEquiv_refl hmb
      | zero =>
        exfalso
        have h4 := (mshape_split hma).2.2.2
        rw [hka] at h4
        cases h4
      | document =>
        exfalso
        have h4 := (mshape_split hma).2.2.2
        rw [hka] at h4
        cases h4
      | sequence =>
        exfalso
        have h4 := (mshape_split hma).2.2.2
        rw [hka] at h4
        cases h4
      | «alias» =>
        exfalso
        have h4 := (mshape_split hma).2.2.2
        rw [hka] at h4
        cases h4
    · have hc : compareNodes a b = some b := compareNodes_kind_ne hk
      rw [roundTrip_some hc,
        applyPatch_not_mapping (fun hx => hk (hx.1.trans hx.2.symm))]
      exact nodeEquiv_refl hmb

/-- C1 (amended): the patch round-trip holds on the spec's mapping/scalar
data model with tidy comments, up to the order of mapping entries, provided
the modified tree contains no entry spelled like the Deletion Marker and no
mapping-valued key is removed (the diff encodes such removals as nested
per-key deletes, which the merge applies inside the surviving empty
mapping rather than removing it, so the unrestricted round-trip fails):
applying the patch produced by Diff(A, B) onto A — Deletion Markers remove
keys, other keys overwrite or add, mappings merge recursively — yields a
tree equal to B up to mapping entry order. -/
theorem c1_patch_round_trip (a b : Node) (hma : mshape a = true)
    (hmb : mshape b = true) (hnmr : noMapRemoval a b = true)
    (hnp : noPatchDelete b = true) : nodeEquiv (roundTrip a b) b = true :=
  roundTrip_aux (sizeOf a + sizeOf b) a b (Nat.le_refl _) hma hmb hnmr hnp

/-- C1 counterexample: for A = {a: {x: "1"}} and B = {}, Diff(A, B) emits
the nested deletion {a: {x: {$patch: delete}}}; merging it onto A deletes
only x and keeps a as an empty mapping, so the round trip returns
{a: {}}, which is not structurally equal to B = {} (not even up to entry
order). -/
theorem c1_counterexample :
    roundTrip (ymp [("a", ymp [("x", ysc "1")])]) (ymp []) = ymp [("a", ymp [])] ∧
    nodeEquiv (ymp [("a", ymp [])]) (ymp []) = false := by
  have h1 : applyPatch (ymp [("x", ysc "1")]) (ymp [("x", createDeleteNode)]) = ymp [] := by
    rw [@applyPatch_mapping (ymp [("x", ysc "1")]) (ymp [("x", createDeleteNode)]) rfl rfl]
    rfl
  have hc : compareNodes (ymp [("a", ymp [("x", ysc "1")])]) (ymp []) =
      some (ymp [("a", ymp [("x", createDeleteNode)])]) := by
    simp [compareNodes.eq_def, compareMappingNodes.eq_def, compareMappingFirst.eq_def,
      compareMappingSecond, processedKeys, nodeMap, contentPairs, mapFind, addNodeToDiff,
      ymp, ysc, Node.kind, Node.value, Node.content, createDeleteNode]
  constructor
  · rw [roundTrip_some hc, @applyPatch_mapping (ymp [("a", ymp [("x", ysc "1")])])
      (ymp [("a", ymp [("x", createDeleteNode)])]) rfl rfl,
      show applyKeptList (ymp [("a", ymp [("x", createDeleteNode)])])
        (contentPairs (ymp [("a", ymp [("x", ysc "1")])]).content) =
        [ysc "a", applyPatch (ymp [("x", ysc "1")]) (ymp [("x", createDeleteNode)])]
        from rfl, h1]
    rfl
  · simp [nodeEquiv.eq_def, entryPairs, contentPairs, mapFind, ymp, ysc,
      Node.kind, Node.value, Node.head, Node.line, Node.foot, Node.content]

theorem nmr_intro {a b : Node}
    (h : ∀ (k : String) (av : Node), (k, av) ∈ entryPairs a →
      (mapFind (entryPairs b) k = none → av.kind ≠ .mapping) ∧
      (∀ bv, mapFind (entryPairs b) k = some bv → noMapRemoval av bv = true)) :
    noMapRemoval a b = true := by
  rw [noMapRemoval.eq_def]
  split
  · apply List.all_eq_true.mpr
    intro kvh _
    have hmem : (kvh.1.1, kvh.1.2) ∈ entryPairs a := kvh.2
    split
    · next heq =>
      have hne := (h kvh.1.1 kvh.1.2 hmem).1 heq
      simp [hne]
    · next bv heq => exact (h kvh.1.1 kvh.1.2 hmem).2 bv heq
  · rfl

theorem c1_patch_round_trip_witness :
    nodeEquiv (roundTrip (ymp [("a", ysc "1")]) (ymp [("a", ysc "2"), ("b", ysc "3")]))
      (ymp [("a", ysc "2"), ("b", ysc "3")]) = true :=
  c1_patch_round_trip (ymp [("a", ysc "1")]) (ymp [("a", ysc "2"), ("b", ysc "3")])
    (by simp [mshape.eq_def, mshapeList.eq_def, ymp, ysc, wfAlt, nodupKeys, entryKeys,
      contentPairs, Node.kind, Node.value, Node.head, Node.line, Node.foot, Node.content])
    (by simp [mshape.eq_def, mshapeList.eq_def, ymp, ysc, wfAlt, nodupKeys, entryKeys,
      contentPairs, Node.kind, Node.value, Node.head, Node.line, Node.foot, Node.content])
    (by
      apply nmr_intro
      intro k av hmem
      simp [entryPairs, contentPairs, ymp, ysc, Node.content, Node.value] at hmem
      obtain ⟨hk, hav⟩ := hmem
      constructor
      · intro hnone
        rw [hk] at hnone
        simp [entryPairs, contentPairs, mapFind, ymp, ysc, Node.content,
          Node.value] at hnone
      · intro bv hbv
        rw [hk] at hbv
        simp only [entryPairs, contentPairs, mapFind, ymp, ysc, Node.content,
          Node.value, List.foldr, if_pos] at hbv
        rw [noMapRemoval.eq_def, if_neg]
        rw [hav]
        intro hcon
        cases hcon.1)
    (by simp [noPatchDelete.eq_def, noPatchDeleteList.eq_def, entryPairs, contentPairs,
      ymp, ysc, Node.kind, Node.value, Node.content])
